import Mathlib

/-!
Verification of the async-html-template engine (`src/Template.ts`).

The development shallowly embeds the compiler pipeline of `Template.ts`:

* the HTML escaper `_toHtml` (three chained global character replacements);
* the tokenizer (the `src.split(...)` regex on line 87) as a character-list
  scanner with the exact leftmost-match/backtracking behaviour of the
  JavaScript regex;
* the structural parser of `_compileAsync` (nesting stack, `closeCode`
  stack, attribute dispatch, partial registry) as a fuelled recursive
  function producing an instruction list instead of JavaScript source
  text — each instruction corresponds to one `code +=` site of the source;
* the render executor as a fuelled interpreter over those instructions,
  with the embedded JavaScript expression evaluator abstracted as an
  oracle (the source delegates expression evaluation to the hosting
  runtime, cf. the generated `with(context)` code).

Strings are modelled as `List Char` so that all scanning functions are
plain structural recursions.
-/

abbrev Str := List Char

/-- JavaScript line terminators (the characters that `.` does not match in
a JS regex without the `s` flag). -/
def isLineTerm (c : Char) : Bool :=
  c = '\n' || c = '\r' || c = ' ' || c = ' '

/-- The JavaScript whitespace class: the character set matched by `\s` in a
JS regex, which is also the set removed by `String.prototype.trim`. -/
def isJsWs (c : Char) : Bool :=
  c = ' ' || c = '\t' || c = '\n' || c = '\r' || c = '\x0b' || c = '\x0c' ||
  c = ' ' || c = ' ' ||
  (0x2000 ≤ c.toNat && c.toNat ≤ 0x200a) ||
  c = ' ' || c = ' ' || c = ' ' || c = ' ' ||
  c = '　' || c = '﻿'

/-- Lowercase ASCII letter, the class `[a-z]` used for attribute names. -/
def isLowerAZ (c : Char) : Bool := 'a' ≤ c && c ≤ 'z'

/-- The JS word class `\w`, i.e. `[A-Za-z0-9_]`. -/
def isWordChar (c : Char) : Bool :=
  ('a' ≤ c && c ≤ 'z') || ('A' ≤ c && c ≤ 'Z') || ('0' ≤ c && c ≤ '9') || c = '_'

/-- First character of a JS identifier as required by the `define`
attribute check `/^[a-zA-Z_]\w*$/`. -/
def isIdentStart (c : Char) : Bool :=
  ('a' ≤ c && c ≤ 'z') || ('A' ≤ c && c ≤ 'Z') || c = '_'

/-- The `define` attribute validity test `/^[a-zA-Z_]\w*$/.test(fnName)`. -/
def isValidFnName (s : Str) : Bool :=
  match s with
  | [] => false
  | c :: rest => isIdentStart c && rest.all isWordChar

/-- `String.prototype.trim`: strip JS whitespace from both ends. -/
def jsTrim (s : Str) : Str :=
  ((s.dropWhile isJsWs).reverse.dropWhile isJsWs).reverse

/-- Concatenation of a list of strings (used to state that the tokenizer
partitions its input). -/
def strJoin (l : List Str) : Str := l.flatten

/-! ## The escaper `_toHtml` (Template.ts lines 30-31)

`const _toHtml = (s) => String(s).replace(/&/g, "&amp;")
    .replace(/</g, "&lt;").replace(/>/g, "&gt;");`

`String.prototype.replace` with a global single-character pattern replaces
every occurrence, left to right, without rescanning the replacement. -/

/-- Global replacement of the single character `c` by the string `r`. -/
def jsReplaceChar (c : Char) (r : Str) : Str → Str
  | [] => []
  | a :: s => if a = c then r ++ jsReplaceChar c r s else a :: jsReplaceChar c r s

/-- The escaper: the three chained global replacements of the source, in
source order (`&` first, then `<`, then `>`). -/
def toHtml (s : Str) : Str :=
  jsReplaceChar '>' "&gt;".toList
    (jsReplaceChar '<' "&lt;".toList
      (jsReplaceChar '&' "&amp;".toList s))

/-- Specification-side escaper: simultaneous per-character replacement of
`&`, `<`, `>` by their entities, every other character kept. -/
def htmlEscapeSim (s : Str) : Str :=
  (s.map fun c =>
    if c = '&' then "&amp;".toList
    else if c = '<' then "&lt;".toList
    else if c = '>' then "&gt;".toList
    else [c]).flatten

theorem jsReplaceChar_append (c : Char) (r a b : Str) :
    jsReplaceChar c r (a ++ b) = jsReplaceChar c r a ++ jsReplaceChar c r b := by
  induction a with
  | nil => rfl
  | cons x xs ih =>
    simp only [List.cons_append, jsReplaceChar]
    by_cases hx : x = c
    · simp [hx, ih, List.append_assoc]
    · simp [hx, ih]

theorem toHtml_append (a b : Str) : toHtml (a ++ b) = toHtml a ++ toHtml b := by
  simp [toHtml, jsReplaceChar_append]

theorem htmlEscapeSim_append (a b : Str) :
    htmlEscapeSim (a ++ b) = htmlEscapeSim a ++ htmlEscapeSim b := by
  simp [htmlEscapeSim]

/-- The chained replacements of `_toHtml` agree with the simultaneous
per-character escaping: replacing `&` first means the ampersands introduced
by the later entity substitutions are never re-escaped. -/
theorem toHtml_eq_htmlEscapeSim (s : Str) : toHtml s = htmlEscapeSim s := by
  induction s with
  | nil => rfl
  | cons x xs ih =>
    have hx : (x :: xs) = [x] ++ xs := rfl
    rw [hx, toHtml_append, htmlEscapeSim_append, ih]
    by_cases h1 : x = '&'
    · subst h1; rfl
    · by_cases h2 : x = '<'
      · subst h2; rfl
      · by_cases h3 : x = '>'
        · subst h3; rfl
        · have : toHtml [x] = [x] := by
            simp [toHtml, jsReplaceChar, h1, h2, h3]
          rw [this]
          simp [htmlEscapeSim, h1, h2, h3]

/-! ## The tokenizer (Template.ts line 87)

`src.split(/(\<\/?\s*(?:script|template)(?:\s(?:[^\>\"]|\"[^\"]*\")*)?\>)/)`

A JS `split` with one capture group interleaves the unmatched stretches
with the captured delimiters.  The regex matches `<`, an optional `/`,
JS whitespace, the keyword `script` or `template`, optionally one
whitespace character followed by a run of non-`>`/non-`"` characters and
complete `"..."` groups, and a closing `>`.  Because no alternative of the
starred group can consume a bare `>` or an unterminated `"`, backtracking
never relocates the closing `>`: the match is the deterministic scan
implemented below (quoted runs may contain `>`; an unterminated quote
makes the whole match fail). -/

/-- Match a literal string at the head of the input, returning the rest. -/
def matchLit : Str → Str → Option Str
  | [], l => some l
  | _ :: _, [] => none
  | p :: ps, c :: cs => if c = p then matchLit ps cs else none

theorem matchLit_eq {pat l r : Str} (h : matchLit pat l = some r) :
    l = pat ++ r := by
  induction pat generalizing l with
  | nil =>
    simp only [matchLit, Option.some.injEq] at h
    simp [h]
  | cons p ps ih =>
    match l with
    | [] => simp [matchLit] at h
    | c :: cs =>
      simp only [matchLit] at h
      split at h
      · next hc => simp [hc, ih h]
      · exact absurd h (by simp)

theorem matchLit_self (pat r : Str) : matchLit pat (pat ++ r) = some r := by
  induction pat with
  | nil => rfl
  | cons p ps ih => simp [matchLit, ih]

/-- The keyword alternative `(?:script|template)`. -/
def matchKw (l : Str) : Option (Str × Str) :=
  match matchLit "script".toList l with
  | some r => some ("script".toList, r)
  | none =>
    match matchLit "template".toList l with
    | some r => some ("template".toList, r)
    | none => none

theorem matchKw_eq {l kw r : Str} (h : matchKw l = some (kw, r)) :
    l = kw ++ r := by
  unfold matchKw at h
  split at h
  · next hm =>
    simp only [Option.some.injEq, Prod.mk.injEq] at h
    obtain ⟨h1, h2⟩ := h
    subst h1; subst h2
    exact matchLit_eq hm
  · split at h
    · next hm =>
      simp only [Option.some.injEq, Prod.mk.injEq] at h
      obtain ⟨h1, h2⟩ := h
      subst h1; subst h2
      exact matchLit_eq hm
    · simp at h

/-- The starred attribute group of the tag regex: consume characters until
an unquoted `>`; a `"` toggles the quoted state (inside which `>` is an
ordinary character); an unterminated quote fails the whole match.  Returns
the consumed characters (without the final `>`) and the rest after it. -/
def scanAttrs : Bool → Str → Option (Str × Str)
  | _, [] => none
  | inQ, c :: r =>
    if c = '"' then (scanAttrs (!inQ) r).map fun p => (c :: p.1, p.2)
    else if !inQ && c = '>' then some ([], r)
    else (scanAttrs inQ r).map fun p => (c :: p.1, p.2)

theorem scanAttrs_eq : ∀ (b : Bool) (l a r : Str),
    scanAttrs b l = some (a, r) → l = a ++ '>' :: r := by
  intro b l
  induction l generalizing b with
  | nil => intro a r h; simp [scanAttrs] at h
  | cons c cs ih =>
    intro a r h
    simp only [scanAttrs] at h
    split at h
    · next hq =>
      rw [Option.map_eq_some'] at h
      obtain ⟨⟨a1, r1⟩, h1, h2⟩ := h
      simp only [Prod.mk.injEq] at h2
      subst hq
      simp [← h2.1, ← h2.2, ih (!b) a1 r1 h1]
    · split at h
      · next hgt =>
        simp only [Option.some.injEq, Prod.mk.injEq] at h
        obtain ⟨h1, h2⟩ := h
        simp only [Bool.and_eq_true, decide_eq_true_eq] at hgt
        simp [← h1, ← h2, hgt.2]
      · rw [Option.map_eq_some'] at h
        obtain ⟨⟨a1, r1⟩, h1, h2⟩ := h
        simp only [Prod.mk.injEq] at h2
        simp [← h2.1, ← h2.2, ih b a1 r1 h1]

theorem scanAttrs_extend : ∀ (b : Bool) (l a r : Str),
    scanAttrs b l = some (a, r) →
    ∀ r2, scanAttrs b (a ++ '>' :: r2) = some (a, r2) := by
  intro b l
  induction l generalizing b with
  | nil => intro a r h; simp [scanAttrs] at h
  | cons c cs ih =>
    intro a r h r2
    simp only [scanAttrs] at h
    split at h
    · next hq =>
      rw [Option.map_eq_some'] at h
      obtain ⟨⟨a1, r1⟩, h1, h2⟩ := h
      simp only [Prod.mk.injEq] at h2
      subst hq
      obtain ⟨h2a, h2b⟩ := h2
      subst h2a
      simp [scanAttrs, List.append_eq, ih (!b) a1 r1 h1 r2]
    · next hq =>
      split at h
      · next hgt =>
        simp only [Option.some.injEq, Prod.mk.injEq] at h
        obtain ⟨h1, h2⟩ := h
        simp only [Bool.and_eq_true, decide_eq_true_eq] at hgt
        subst h1
        simp [scanAttrs, hgt.1, hgt.2]
      · next hgt =>
        rw [Option.map_eq_some'] at h
        obtain ⟨⟨a1, r1⟩, h1, h2⟩ := h
        simp only [Prod.mk.injEq] at h2
        obtain ⟨h2a, h2b⟩ := h2
        subst h2a
        simp [scanAttrs, hq, hgt, List.append_eq, ih b a1 r1 h1 r2]

/-- The optional `/` right after `<` in the tag regex. -/
def splitSlash (l : Str) : Str × Str :=
  match l with
  | c :: t => if c = '/' then (['/'], t) else ([], l)
  | [] => ([], [])

theorem splitSlash_eq (l : Str) : l = (splitSlash l).1 ++ (splitSlash l).2 := by
  match l with
  | [] => rfl
  | c :: t =>
    simp only [splitSlash]
    split
    · next hc => simp [hc]
    · simp

/-- One attempt of the tokenizer regex
`\<\/?\s*(?:script|template)(?:\s(?:[^\>\"]|\"[^\"]*\")*)?\>` at the head
of the input.  Returns the full matched tag and the rest of the input. -/
def tryTag (l : Str) : Option (Str × Str) :=
  match l with
  | [] => none
  | c :: r1 =>
    if c = '<' then
      let sl := (splitSlash r1).1
      let r2 := (splitSlash r1).2
      let ws := r2.takeWhile isJsWs
      let r3 := r2.dropWhile isJsWs
      match matchKw r3 with
      | none => none
      | some (kw, r4) =>
        match r4 with
        | [] => none
        | d :: r5 =>
          if d = '>' then some ('<' :: (sl ++ ws ++ kw ++ ['>']), r5)
          else if isJsWs d then
            match scanAttrs false r5 with
            | some (a, r6) => some ('<' :: (sl ++ ws ++ kw ++ d :: (a ++ ['>'])), r6)
            | none => none
          else none
    else none

theorem tryTag_struct {l t r : Str} (h : tryTag l = some (t, r)) :
    l = t ++ r ∧ ∃ t0, t = '<' :: t0 := by
  match l with
  | [] => simp [tryTag] at h
  | c :: r1 =>
    simp only [tryTag] at h
    split at h
    · rename_i hc
      subst hc
      rcases hsp : splitSlash r1 with ⟨sl, r2⟩
      simp only [hsp] at h
      have hr2 : r1 = sl ++ r2 := by
        have h0 := splitSlash_eq r1
        rw [hsp] at h0
        exact h0
      have hr3 : r2 = r2.takeWhile isJsWs ++ r2.dropWhile isJsWs :=
        (List.takeWhile_append_dropWhile isJsWs r2).symm
      split at h
      · simp at h
      · rename_i kw r4 hkw
        have hkw2 : r2.dropWhile isJsWs = kw ++ r4 := matchKw_eq hkw
        split at h
        · simp at h
        · rename_i d r5
          split at h
          · rename_i hd
            simp only [Option.some.injEq, Prod.mk.injEq] at h
            obtain ⟨h1, h2⟩ := h
            subst hd h1 h2
            refine ⟨?_, _, rfl⟩
            simp only [List.cons_append, List.cons.injEq, true_and]
            conv_lhs => rw [hr2, hr3, hkw2]
            simp
          · split at h
            · rename_i hd hd2
              split at h
              · rename_i a r6 hscan
                simp only [Option.some.injEq, Prod.mk.injEq] at h
                obtain ⟨h1, h2⟩ := h
                subst h1 h2
                have hr5 : r5 = a ++ '>' :: r6 := scanAttrs_eq false r5 a r6 hscan
                refine ⟨?_, _, rfl⟩
                simp only [List.cons_append, List.cons.injEq, true_and]
                conv_lhs => rw [hr2, hr3, hkw2, hr5]
                simp
              · simp at h
            · simp at h
    · simp at h

theorem matchKw_cases {l kw r : Str} (h : matchKw l = some (kw, r)) :
    kw = "script".toList ∨ kw = "template".toList := by
  unfold matchKw at h
  split at h
  · left
    simp only [Option.some.injEq, Prod.mk.injEq] at h
    exact h.1.symm
  · split at h
    · right
      simp only [Option.some.injEq, Prod.mk.injEq] at h
      exact h.1.symm
    · simp at h

theorem matchKw_script (X : Str) :
    matchKw ("script".toList ++ X) = some ("script".toList, X) := by
  unfold matchKw
  rw [matchLit_self]

theorem matchLit_script_template (X : Str) :
    matchLit "script".toList ("template".toList ++ X) = none := by
  rfl

theorem matchKw_template (X : Str) :
    matchKw ("template".toList ++ X) = some ("template".toList, X) := by
  unfold matchKw
  rw [matchLit_script_template, matchLit_self]

theorem splitSlash_not_slash {l : Str} (h : l.head? ≠ some '/') :
    splitSlash l = ([], l) := by
  match l with
  | [] => rfl
  | c :: t =>
    simp only [List.head?] at h
    simp only [splitSlash]
    rw [if_neg]
    intro hc
    exact h (by rw [hc])

theorem takeWhile_append_all {p : Char → Bool} {ws : Str} (hws : ∀ x ∈ ws, p x)
    {c : Char} (hc : ¬ p c = true) (rest : Str) :
    (ws ++ c :: rest).takeWhile p = ws ∧ (ws ++ c :: rest).dropWhile p = c :: rest := by
  induction ws with
  | nil => simp [List.takeWhile_cons, List.dropWhile_cons, hc]
  | cons w ws ih =>
    have hw : p w := hws w (by simp)
    have ihh := ih (fun x hx => hws x (by simp [hx]))
    simp [List.takeWhile_cons, List.dropWhile_cons, hw, ihh.1, ihh.2]

/-- Rebuild a successful tag match: a tag of the matched shape, followed by
any remainder, matches again consuming exactly the tag. -/
theorem tryTag_make (sl ws kw rest rem : Str)
    (hsl : sl = [] ∨ sl = ['/'])
    (hws : ∀ x ∈ ws, isJsWs x)
    (hkw : kw = "script".toList ∨ kw = "template".toList)
    (hbr : rest = ['>'] ∨
      (∃ d a, rest = d :: (a ++ ['>']) ∧ isJsWs d = true ∧ d ≠ '>' ∧
        scanAttrs false (a ++ '>' :: rem) = some (a, rem))) :
    tryTag (('<' :: (sl ++ ws ++ kw ++ rest)) ++ rem) =
      some ('<' :: (sl ++ ws ++ kw ++ rest), rem) := by
  have hkwhead : ∃ k0 ks, kw = k0 :: ks ∧ ¬ isJsWs k0 = true ∧ k0 ≠ '/' := by
    rcases hkw with h | h <;> subst h
    · exact ⟨'s', _, rfl, by decide, by decide⟩
    · exact ⟨'t', _, rfl, by decide, by decide⟩
  obtain ⟨k0, ks, hk, hk0ws, hk0sl⟩ := hkwhead
  have hsplit : splitSlash ((sl ++ ws ++ kw ++ rest) ++ rem) =
      (sl, ws ++ kw ++ rest ++ rem) := by
    rcases hsl with h | h <;> subst h
    · rcases hws0 : ws with _ | ⟨w, ws1⟩
      · rw [splitSlash_not_slash]
        · simp [hk]
        · subst hk
          simp
          exact hk0sl
      · rw [splitSlash_not_slash]
        · simp
        · have hw : isJsWs w := hws w (by simp [hws0])
          simp
          intro hcontra
          rw [hcontra] at hw
          exact absurd hw (by decide)
    · simp [splitSlash]
  have htd := @takeWhile_append_all isJsWs ws hws k0 hk0ws
    (ks ++ rest ++ rem)
  have htake : (ws ++ kw ++ rest ++ rem).takeWhile isJsWs = ws := by
    have : ws ++ kw ++ rest ++ rem = ws ++ k0 :: (ks ++ rest ++ rem) := by
      simp [hk]
    rw [this, (htd).1]
  have hdrop : (ws ++ kw ++ rest ++ rem).dropWhile isJsWs = kw ++ (rest ++ rem) := by
    have : ws ++ kw ++ rest ++ rem = ws ++ k0 :: (ks ++ rest ++ rem) := by
      simp [hk]
    rw [this, (htd).2, hk]
    simp
  have hmkw : matchKw (kw ++ (rest ++ rem)) = some (kw, rest ++ rem) := by
    rcases hkw with h | h <;> subst h
    · exact matchKw_script _
    · exact matchKw_template _
  simp only [tryTag, List.cons_append, if_pos rfl]
  rw [hsplit]
  simp only
  rw [htake, hdrop, hmkw]
  rcases hbr with h | ⟨d, a, hrest, hdws, hdgt, hscan⟩
  · subst h
    simp
  · subst hrest
    simp only [List.cons_append, List.append_assoc]
    rw [if_neg hdgt, if_pos hdws]
    simp [hscan]

theorem splitSlash_fst (l : Str) : (splitSlash l).1 = [] ∨ (splitSlash l).1 = ['/'] := by
  match l with
  | [] => left; rfl
  | c :: t =>
    simp only [splitSlash]
    split
    · right; rfl
    · left; rfl

/-- A successful match consumes a prefix that re-matches in front of any
other remainder: the regex decisions depend only on the consumed text. -/
theorem tryTag_extend {l t r : Str} (h : tryTag l = some (t, r)) (rem : Str) :
    tryTag (t ++ rem) = some (t, rem) := by
  match l with
  | [] => simp [tryTag] at h
  | c :: r1 =>
    simp only [tryTag] at h
    split at h
    · rename_i hc
      subst hc
      rcases hsp : splitSlash r1 with ⟨sl, r2⟩
      simp only [hsp] at h
      have hslc : sl = [] ∨ sl = ['/'] := by
        have h0 := splitSlash_fst r1
        rw [hsp] at h0
        exact h0
      have hwsall : ∀ x ∈ r2.takeWhile isJsWs, isJsWs x :=
        fun x hx => List.mem_takeWhile_imp hx
      split at h
      · simp at h
      · rename_i kw r4 hkw
        have hkwc := matchKw_cases hkw
        split at h
        · simp at h
        · rename_i d r5
          split at h
          · rename_i hd
            simp only [Option.some.injEq, Prod.mk.injEq] at h
            obtain ⟨h1, h2⟩ := h
            subst hd h1 h2
            exact tryTag_make sl (r2.takeWhile isJsWs) kw ['>'] rem hslc hwsall hkwc
              (Or.inl rfl)
          · split at h
            · rename_i hd hd2
              split at h
              · rename_i a r6 hscan
                simp only [Option.some.injEq, Prod.mk.injEq] at h
                obtain ⟨h1, h2⟩ := h
                subst h1 h2
                exact tryTag_make sl (r2.takeWhile isJsWs) kw (d :: (a ++ ['>'])) rem
                  hslc hwsall hkwc
                  (Or.inr ⟨d, a, rfl, hd2, hd, scanAttrs_extend false r5 a r6 hscan rem⟩)
              · simp at h
            · simp at h
    · simp at h

/-- The `split` scan: walk the source, attempting the tag regex at every
position; emit the pending literal (possibly empty) before each captured
tag, and the trailing literal at the end — exactly the interleaved output
of the JS `split` with a capture group.  Fuelled with one unit per input
character (`tokenizeJS` supplies the input length, which always
suffices). -/
def scanTok : Nat → Str → Str → List Str
  | 0, l, acc => [acc.reverse ++ l]
  | _ + 1, [], acc => [acc.reverse]
  | fuel + 1, c :: cs, acc =>
    match tryTag (c :: cs) with
    | some (tag, rest) => acc.reverse :: tag :: scanTok fuel rest []
    | none => scanTok fuel cs (c :: acc)

/-- The tokenizer of `_compileAsync` line 87. -/
def tokenizeJS (src : Str) : List Str := scanTok src.length src []

theorem scanTok_join : ∀ (fuel : Nat) (l acc : Str),
    strJoin (scanTok fuel l acc) = acc.reverse ++ l := by
  intro fuel
  induction fuel with
  | zero => intro l acc; simp [scanTok, strJoin]
  | succ fuel ih =>
    intro l acc
    match l with
    | [] => simp [scanTok, strJoin]
    | c :: cs =>
      rw [scanTok]
      split
      · rename_i tag rest htag
        obtain ⟨heq, t0, ht⟩ := tryTag_struct htag
        simp only [strJoin, List.flatten_cons]
        have ih2 := ih rest []
        simp only [strJoin, List.reverse_nil, List.nil_append] at ih2
        rw [ih2, heq]
      · rw [ih cs (c :: acc)]
        simp

/-- Concatenating the tokenizer output reproduces the source exactly. -/
theorem tokenizeJS_join (src : Str) : strJoin (tokenizeJS src) = src := by
  simpa using scanTok_join src.length src []

/-- Shape of the tokenizer output: a literal, then alternating captured
tags and literals; every captured tag fully re-matches the tag regex on
its own (it is exactly one tag boundary). -/
inductive TokShape : List Str → Prop
  | single (l : Str) : TokShape [l]
  | cons (l t : Str) (rest : List Str) (ht : tryTag t = some (t, []))
      (hr : TokShape rest) : TokShape (l :: t :: rest)

theorem scanTok_shape : ∀ (fuel : Nat) (l acc : Str), TokShape (scanTok fuel l acc) := by
  intro fuel
  induction fuel with
  | zero => intro l acc; exact TokShape.single _
  | succ fuel ih =>
    intro l acc
    match l with
    | [] => exact TokShape.single _
    | c :: cs =>
      rw [scanTok]
      split
      · rename_i tag rest htag
        have hfull := tryTag_extend htag []
        rw [List.append_nil] at hfull
        exact TokShape.cons _ _ _ hfull (ih rest [])
      · exact ih cs (c :: acc)

/-! ## Parser-side classification regexes (Template.ts lines 96, 99, 105, 116-117)

The parse loop re-tests every part with anchored regexes.  `.` in a JS
regex without the `s` flag matches everything except line terminators, so
a tag token containing a newline in its attribute area fails these tests
and falls through to the literal branch. -/

/-- Is there a `>` ahead before any line terminator (the `.*\>` part of
`/^\<\s*script.*\>/`)? -/
def existsGtNoNl : Str → Bool
  | [] => false
  | c :: r => if c = '>' then true else if isLineTerm c then false else existsGtNoNl r

/-- `/^\<\s*script.*\>/.test(p)` (line 96). -/
def testScriptOpen (p : Str) : Bool :=
  match p with
  | [] => false
  | c :: r =>
    c = '<' &&
      (match matchLit "script".toList (r.dropWhile isJsWs) with
       | some rest => existsGtNoNl rest
       | none => false)

/-- `/^\<\/\s*script/.test(p)` (line 99). -/
def testScriptClose (p : Str) : Bool :=
  match p with
  | c1 :: c2 :: r =>
    c1 = '<' && c2 = '/' && (matchLit "script".toList (r.dropWhile isJsWs)).isSome
  | _ => false

/-- Does the string end in `c` with no line terminator before it
(`.*c$` with `.` not matching line terminators)? -/
def endsCharNoNl (e : Char) : Str → Bool
  | [] => false
  | [c] => c = e
  | c :: r => !isLineTerm c && endsCharNoNl e r

/-- `/^\<\/?\s*template.*\>$/.test(p)` (line 116). -/
def testTemplateTag (p : Str) : Bool :=
  match p with
  | [] => false
  | c :: r =>
    c = '<' &&
      (match matchLit "template".toList (((splitSlash r).2).dropWhile isJsWs) with
       | some rest => endsCharNoNl '>' rest
       | none => false)

/-- `p[1] === "/"` (line 117). -/
def secondIsSlash (p : Str) : Bool :=
  match p with
  | _ :: c2 :: _ => c2 = '/'
  | _ => false

/-- One position of the search `/\s+in-template\W/`: one whitespace, the
literal `in-template`, then a non-word character (which must exist). -/
def inTemplAt (l : Str) : Bool :=
  match l with
  | [] => false
  | c :: r =>
    isJsWs c &&
      (match matchLit "in-template".toList r with
       | some (w :: _) => !isWordChar w
       | _ => false)

/-- `/\s+in-template\W/.test(openTag)` (line 105): search at any position
(extra leading whitespace is absorbed by trying every start). -/
def hasInTemplateAttr : Str → Bool
  | [] => false
  | c :: r => inTemplAt (c :: r) || hasInTemplateAttr r

/-! ## Attribute splitting (Template.ts lines 131-133)

`p.split(/(\s+|[a-z]+\s*=\s*"[^"]*")/).map(q => q.trim()).slice(1)` and
`selfClosing = (parts.pop() === "/>")`. -/

/-- `[^"]*"`: everything up to and including the next quote. -/
def scanToQuote : Str → Option (Str × Str)
  | [] => none
  | c :: r => if c = '"' then some ([], r) else (scanToQuote r).map fun p => (c :: p.1, p.2)

theorem scanToQuote_eq : ∀ {l i r : Str},
    scanToQuote l = some (i, r) → l = i ++ '"' :: r := by
  intro l
  induction l with
  | nil => intro i r h; simp [scanToQuote] at h
  | cons c cs ih =>
    intro i r h
    simp only [scanToQuote] at h
    split at h
    · next hq =>
      simp only [Option.some.injEq, Prod.mk.injEq] at h
      obtain ⟨h1, h2⟩ := h
      subst hq h2
      simp [← h1]
    · next hq =>
      rw [Option.map_eq_some'] at h
      obtain ⟨⟨i1, r1⟩, h1, h2⟩ := h
      simp only [Prod.mk.injEq] at h2
      obtain ⟨h2a, h2b⟩ := h2
      subst h2a h2b
      simp [ih h1]

/-- One attempt of the attribute-splitting regex `\s+|[a-z]+\s*=\s*"[^"]*"`
at the head of the input: a maximal whitespace run, or a full
`name = "value"` attribute. -/
def tryAttrDelim (l : Str) : Option (Str × Str) :=
  match l with
  | [] => none
  | c :: r =>
    if isJsWs c then
      some (c :: r.takeWhile isJsWs, r.dropWhile isJsWs)
    else if isLowerAZ c then
      let letters := r.takeWhile isLowerAZ
      let r1 := r.dropWhile isLowerAZ
      let sp1 := r1.takeWhile isJsWs
      let r2 := r1.dropWhile isJsWs
      match r2 with
      | '=' :: r3 =>
        let sp2 := r3.takeWhile isJsWs
        let r4 := r3.dropWhile isJsWs
        match r4 with
        | '"' :: r5 =>
          match scanToQuote r5 with
          | some (inner, r6) =>
            some ((c :: letters) ++ sp1 ++ '=' :: (sp2 ++ '"' :: (inner ++ ['"'])), r6)
          | none => none
        | _ => none
      | _ => none
    else none

theorem tryAttrDelim_struct {l cap rest : Str} (h : tryAttrDelim l = some (cap, rest)) :
    l = cap ++ rest ∧ cap ≠ [] := by
  match l with
  | [] => simp [tryAttrDelim] at h
  | c :: r =>
    simp only [tryAttrDelim] at h
    split at h
    · simp only [Option.some.injEq, Prod.mk.injEq] at h
      obtain ⟨h1, h2⟩ := h
      subst h1 h2
      refine ⟨?_, by simp⟩
      simp [List.takeWhile_append_dropWhile]
    · split at h
      · split at h
        · rename_i heq2
          split at h
          · rename_i heq4
            split at h
            · rename_i inner r6 hq
              rename_i hA hB r2x r3x r4x r5x xX
              simp only [Option.some.injEq, Prod.mk.injEq] at h
              obtain ⟨h1, h2⟩ := h
              subst h1 h2
              refine ⟨?_, by simp⟩
              have e1 : r = r.takeWhile isLowerAZ ++ r.dropWhile isLowerAZ :=
                (List.takeWhile_append_dropWhile isLowerAZ r).symm
              have e2 : r.dropWhile isLowerAZ =
                  (r.dropWhile isLowerAZ).takeWhile isJsWs ++
                  (r.dropWhile isLowerAZ).dropWhile isJsWs :=
                (List.takeWhile_append_dropWhile isJsWs (r.dropWhile isLowerAZ)).symm
              have e3 := heq2
              have e4 : ∀ r3 : Str, r3 = r3.takeWhile isJsWs ++ r3.dropWhile isJsWs :=
                fun r3 => (List.takeWhile_append_dropWhile isJsWs r3).symm
              have e5 := scanToQuote_eq hq
              simp only [List.cons_append, List.cons.injEq, true_and, List.append_assoc]
              conv_lhs => rw [e1, e2, heq2]
              conv_lhs => rw [e4 r3x, heq4, e5]
              simp
            · simp at h
          · simp at h
        · simp at h
      · simp at h

/-- The attribute `split` with a capture group, same interleaving as the
tokenizer split (fuelled with one unit per character, always enough). -/
def scanAttrPieces : Nat → Str → Str → List Str
  | 0, l, acc => [acc.reverse ++ l]
  | _ + 1, [], acc => [acc.reverse]
  | fuel + 1, c :: cs, acc =>
    match tryAttrDelim (c :: cs) with
    | some (cap, rest) => acc.reverse :: cap :: scanAttrPieces fuel rest []
    | none => scanAttrPieces fuel cs (c :: acc)

/-- `p.split(attrRegex).map(q => q.trim()).slice(1)` (line 132). -/
def attrPieces (p : Str) : List Str :=
  ((scanAttrPieces p.length p []).map jsTrim).drop 1

/-- `q.match(/^([a-z]+)\s*=.*"$/)`, returning the captured attribute name
(line 143). -/
def attrNameOf (q : Str) : Option Str :=
  match q with
  | [] => none
  | c :: r =>
    if isLowerAZ c then
      match (r.dropWhile isLowerAZ).dropWhile isJsWs with
      | '=' :: r3 => if endsCharNoNl '"' r3 then some (c :: r.takeWhile isLowerAZ) else none
      | _ => none
    else none

/-- `s.replace(/^[^\"]*\"/, "")`: drop everything up to and including the
first quote; if there is no quote the string is unchanged (no match). -/
def afterFirstQuote : Str → Option Str
  | [] => none
  | c :: r => if c = '"' then some r else afterFirstQuote r

def jsStripToQuote (l : Str) : Str := (afterFirstQuote l).getD l

/-! ## The `{{ ... }}` marker pattern

`getAttr` (lines 136-140) tests `/^{{((?:[^}]|}[^}])+)}}$/` against the
attribute value; literal text (line 269) is globally rewritten with
`/{{((?:[^}]|}[^}])+)}}/g`.  The repeated group consumes any character
except `}`, or a `}` not followed by another `}`; hence it can never cross
a `}}` and the match always ends at the first `}}`. -/

/-- Greedy scan of `(?:[^}]|}[^}])+` items: returns the consumed prefix
and the remainder (which starts with `}}`, or is a lone trailing `}`, or
is empty). -/
def braceScan : Str → Str × Str
  | [] => ([], [])
  | [c] => if c = '}' then ([], [c]) else ([c], [])
  | c :: d :: r2 =>
    if c = '}' then
      if d = '}' then ([], c :: d :: r2)
      else
        let p := braceScan r2
        (c :: d :: p.1, p.2)
    else
      let p := braceScan (d :: r2)
      (c :: p.1, p.2)

theorem braceScan_eq (l : Str) : l = (braceScan l).1 ++ (braceScan l).2 := by
  have H : ∀ (n : Nat) (l : Str), l.length ≤ n →
      l = (braceScan l).1 ++ (braceScan l).2 := by
    intro n
    induction n with
    | zero =>
      intro l hl
      match l with
      | [] => rfl
      | _ :: _ => simp at hl
    | succ n ih =>
      intro l hl
      match l with
      | [] => rfl
      | [c] => by_cases hc : c = '}' <;> simp [braceScan, hc]
      | c :: d :: r2 =>
        by_cases hc : c = '}'
        · by_cases hd : d = '}'
          · simp [braceScan, hc, hd]
          · have h2 := ih r2 (by simp at hl ⊢; omega)
            simp only [braceScan, if_pos hc, if_neg hd]
            simp only [List.cons_append, ← h2]
        · have h2 := ih (d :: r2) (by simp at hl ⊢; omega)
          simp only [braceScan, if_neg hc]
          simp only [List.cons_append, ← h2]
  exact H l.length l (Nat.le_refl _)

/-- The anchored test `/^{{((?:[^}]|}[^}])+)}}$/.test(attr)` (line 138):
two opening braces, a nonempty item run, then exactly `}}` at the end. -/
def bracesWrapped (l : Str) : Bool :=
  match l with
  | a :: b :: rest =>
    a = '{' && b = '{' &&
      (!(braceScan rest).1.isEmpty && (braceScan rest).2 = ['}', '}'])
  | _ => false

/-- `getAttr` (lines 136-140): drop the final quote, strip everything up
to and including the first quote, and — unless `noBraces` — unwrap a value
fully wrapped in `{{ }}` (`attr.slice(2, -2)` keeps the inner text). -/
def getAttr (s : Str) (noBraces : Bool) : Str :=
  let attr := jsStripToQuote s.dropLast
  if !noBraces && bracesWrapped attr then (attr.drop 2).dropLast.dropLast else attr

/-- Attempt the marker body right after two opening braces: a nonempty
item run followed by `}}`; returns the inner expression and the rest. -/
def markerHere (r2 : Str) : Option (Str × Str) :=
  let p := braceScan r2
  if p.1.isEmpty then none
  else
    match p.2 with
    | e :: f :: rest2 => if e = '}' && f = '}' then some (p.1, rest2) else none
    | _ => none

theorem markerHere_eq {r2 i a : Str} (h : markerHere r2 = some (i, a)) :
    r2 = i ++ '}' :: '}' :: a ∧ i ≠ [] := by
  unfold markerHere at h
  simp only at h
  split at h
  · simp at h
  · rename_i hne
    split at h
    · rename_i e f rest2 hp2
      split at h
      · rename_i hef
        simp only [Option.some.injEq, Prod.mk.injEq] at h
        obtain ⟨h1, h2⟩ := h
        simp only [Bool.and_eq_true, decide_eq_true_eq] at hef
        obtain ⟨he, hf⟩ := hef
        subst he hf h1 h2
        constructor
        · have hbs := braceScan_eq r2
          rw [hp2] at hbs
          exact hbs
        · intro hemp
          rw [hemp] at hne
          simp at hne
      · simp at h
    · simp at h

/-- Search for the leftmost `{{ ... }}` marker (the global replace of
line 269): returns the text before it, the inner expression, and the rest
after the closing braces.  On failure at one position the scan advances a
single character, as the JS regex engine does. -/
def findMarker : Str → Option (Str × Str × Str)
  | [] => none
  | [_] => none
  | c :: d :: r2 =>
    if c = '{' && d = '{' then
      match markerHere r2 with
      | some (i, a) => some ([], i, a)
      | none => (findMarker (d :: r2)).map fun q => (c :: q.1, q.2.1, q.2.2)
    else (findMarker (d :: r2)).map fun q => (c :: q.1, q.2.1, q.2.2)

theorem findMarker_struct : ∀ {l b i a : Str},
    findMarker l = some (b, i, a) →
    l = b ++ '{' :: '{' :: (i ++ '}' :: '}' :: a) ∧ i ≠ [] := by
  have H : ∀ (n : Nat) (l : Str), l.length ≤ n → ∀ {b i a : Str},
      findMarker l = some (b, i, a) →
      l = b ++ '{' :: '{' :: (i ++ '}' :: '}' :: a) ∧ i ≠ [] := by
    intro n
    induction n with
    | zero =>
      intro l hl b i a h
      match l with
      | [] => simp [findMarker] at h
      | _ :: _ => simp at hl
    | succ n ih =>
      intro l hl b i a h
      match l with
      | [] => simp [findMarker] at h
      | [c] => simp [findMarker] at h
      | c :: d :: r2 =>
        simp only [findMarker] at h
        split at h
        · rename_i hcd
          simp only [Bool.and_eq_true, decide_eq_true_eq] at hcd
          obtain ⟨hc, hd⟩ := hcd
          split at h
          · rename_i i2 a2 hmk
            simp only [Option.some.injEq, Prod.mk.injEq] at h
            obtain ⟨h1, h2, h3⟩ := h
            subst h1 h2 h3 hc hd
            obtain ⟨hm1, hm2⟩ := markerHere_eq hmk
            exact ⟨by rw [hm1]; rfl, hm2⟩
          · rw [Option.map_eq_some'] at h
            obtain ⟨⟨b1, i1, a1⟩, h1, h2⟩ := h
            simp only [Prod.mk.injEq] at h2
            obtain ⟨h2a, h2b, h2c⟩ := h2
            subst h2a h2b h2c
            obtain ⟨ih1, ih2⟩ := ih (d :: r2) (by simp at hl ⊢; omega) h1
            exact ⟨by rw [ih1]; rfl, ih2⟩
        · rw [Option.map_eq_some'] at h
          obtain ⟨⟨b1, i1, a1⟩, h1, h2⟩ := h
          simp only [Prod.mk.injEq] at h2
          obtain ⟨h2a, h2b, h2c⟩ := h2
          subst h2a h2b h2c
          obtain ⟨ih1, ih2⟩ := ih (d :: r2) (by simp at hl ⊢; omega) h1
          exact ⟨by rw [ih1]; rfl, ih2⟩
  intro l b i a h
  exact H l.length l (Nat.le_refl _) h

/-! ## The intermediate program

`_compileAsync` builds JavaScript source text by appending at `code +=`
sites and queueing closing text in `closeCode`.  The embedding replaces
each appended fragment by one instruction; the stacks (`nesting`,
`closeCode`) and the running `definedInner` list are kept exactly as in
the source. -/

inductive ScopeKind where
  | sIf
  | sFor
  | sWhile
deriving Repr, DecidableEq

/-- How the context argument of a `use` call or a partial render is built
(Template.ts lines 184-205, 232-256). -/
inductive CtxSpec where
  /-- an explicit `context` attribute expression -/
  | explicitE (expr : Str)
  /-- `Object.assign({content: ""}, context)` -/
  | mergeEmptyContent
  /-- `Object.assign({content: _$out}, context)` with the captured inner output -/
  | mergeCapturedContent
  /-- `{d1, d2, ..., content: _$out}`: only the functions defined so far plus
  the captured inner output -/
  | definedWithContent (names : List Str)
deriving Repr, DecidableEq

inductive Instr where
  /-- `_$out += `...`` — literal output -/
  | emitLit (s : Str)
  /-- escaped `${_$toHtml(expr)}` (escape = true) or raw `_$out += (expr);`
  (escape = false, the `html` attribute) -/
  | emitExpr (expr : Str) (escape : Bool)
  /-- an `in-template` script body spliced into the program -/
  | execStmt (js : Str)
  /-- `if (expr) {` / `for (expr) {` / `while (expr) {` -/
  | scopeOpen (kind : ScopeKind) (expr : Str)
  /-- the matching `}` -/
  | scopeClose
  /-- `async function name(context) { let _$out = ""; with(context) {` -/
  | defineOpen (name : Str)
  /-- `} return _$out; };` -/
  | defineClose
  /-- self-closing `use`: evaluate the call expression, call it if it is a
  function, append `""` otherwise -/
  | callFn (expr : Str) (ctx : CtxSpec)
  /-- `_$out += await (async ()=>{ let _$out = "";` — open a capture scope -/
  | captureOpen
  /-- close of a paired `use`: call with the captured content -/
  | captureCallFn (expr : Str) (ctx : CtxSpec)
  /-- self-closing `partial`/`wrap`: render the registered partial -/
  | emitPartial (path : Str) (ctx : CtxSpec)
  /-- close of a paired `partial`/`wrap` -/
  | capClosePartial (path : Str) (ctx : CtxSpec)
deriving Repr, DecidableEq

/-- Literal-segment processing (line 269): rewrite each `{{ expr }}` marker
into an escaped expression emission, leaving the surrounding text as
literal output.  (`escOutput` composed with the template-literal evaluation
of the generated code is the identity on the emitted text, so the literal
chunks appear verbatim.) -/
def parseLiteral : Nat → Str → List Instr
  | 0, text => [.emitLit text]
  | fuel + 1, text =>
    match findMarker text with
    | some (b, i, a) => .emitLit b :: .emitExpr i true :: parseLiteral fuel a
    | none => [.emitLit text]

inductive CErr where
  /-- `Unexpected </template>` (line 121) -/
  | unexpectedClose
  /-- `Expected </template> for matching ...` (line 275) -/
  | unclosedTemplate (tag : Str)
  /-- `Unexpected: ... at line ...` (line 176) -/
  | unexpectedAttr (piece : Str)
  /-- `Invalid function name: ...` (line 168) -/
  | invalidFnName (name : Str)
  /-- `Cannot include partial: no file name` (line 213) -/
  | noFileName
  /-- artefact of the fuelled recursion; never produced with enough fuel -/
  | outOfFuel
deriving Repr, DecidableEq

structure CState where
  code : List Instr
  nesting : List Str
  closeCode : List (List Instr)
  definedInner : List Str
deriving Repr, DecidableEq

def emptyCState : CState :=
  { code := [], nesting := [], closeCode := [], definedInner := [] }

/-- The shared partial registry (`partials` object keys, insertion order)
and the log of read requests issued for partials. -/
structure PState where
  reg : List Str
  loads : List Str
deriving Repr, DecidableEq

/-- `path.dirname` (platform normalization abstracted: everything up to the
last `/`). -/
def dirname (p : Str) : Str :=
  if p.contains '/' then ((p.reverse.dropWhile (fun c => !(c = '/'))).drop 1).reverse
  else ".".toList

/-- `path.join(dir, rel)` (normalization abstracted; the claims only need
a deterministic resolved key). -/
def joinPath (dir rel : Str) : Str := dir ++ '/' :: rel

/-- `fs.exists` + fallback to `path + ".html"` + `fs.readFile`
(lines 219-227). -/
def fsRead (fs : Str → Option Str) (p : Str) : Option Str :=
  match fs p with
  | some s => some s
  | none => fs (p ++ ".html".toList)

/-- The script-gathering loop (lines 98-102): collect parts verbatim until
a part passing the close-script test, which becomes the close tag. -/
def gatherScript : List Str → Str × Option Str × List Str
  | [] => ([], none, [])
  | p :: rest =>
    if testScriptClose p then ([], some p, rest)
    else
      let g := gatherScript rest
      (p ++ g.1, g.2.1, g.2.2)

/-- `scriptContent + (scriptContent.endsWith(";") ? "" : ";")` (line 106). -/
def withSemi (s : Str) : Str := if s.getLast? = some ';' then s else s ++ [';']

/-- JS truthiness of the `partialContext` variable: unset, or set to an
empty explicit expression string, counts as absent (line 184 etc.). -/
def ctxFalsy : Option CtxSpec → Bool
  | none => true
  | some (.explicitE e) => e.isEmpty
  | some _ => false

def ctxOrDefault (o : Option CtxSpec) (d : CtxSpec) : CtxSpec :=
  match o with
  | none => d
  | some c => if ctxFalsy (some c) then d else c

/-- State of one `<template ...>` tag while its attributes are processed:
the global compile state, this tag's pending closing instructions
(`closeCode` top), and the `callExpr` / `partialContext` / `partialPath`
locals of lines 134-135. -/
structure AttrState where
  st : CState
  closeTop : List Instr
  callExpr : Option Str
  partialCtx : Option CtxSpec
  pPath : Str

/-- One iteration of the attribute loop (lines 141-178). -/
def applyAttr (a : AttrState) (q : Str) : Except CErr AttrState :=
  if q = [] then .ok a
  else
    match attrNameOf q with
    | some name =>
      if name = "if".toList then
        .ok { a with
          st := { a.st with code := a.st.code ++ [.scopeOpen .sIf (jsTrim (getAttr q false))] },
          closeTop := .scopeClose :: a.closeTop }
      else if name = "for".toList then
        .ok { a with
          st := { a.st with code := a.st.code ++ [.scopeOpen .sFor (jsTrim (getAttr q false))] },
          closeTop := .scopeClose :: a.closeTop }
      else if name = "while".toList then
        .ok { a with
          st := { a.st with code := a.st.code ++ [.scopeOpen .sWhile (jsTrim (getAttr q false))] },
          closeTop := .scopeClose :: a.closeTop }
      else if name = "html".toList then
        .ok { a with
          st := { a.st with code := a.st.code ++ [.emitExpr (jsTrim (getAttr q false)) false] } }
      else if name = "use".toList then
        .ok { a with callExpr := some (jsTrim (getAttr q false)) }
      else if name = "context".toList then
        .ok { a with partialCtx := some (.explicitE (jsTrim (getAttr q false))) }
      else if name = "partial".toList || name = "wrap".toList then
        .ok { a with pPath := jsTrim (getAttr q true) }
      else if name = "define".toList then
        let fnName := jsTrim (getAttr q true)
        if isValidFnName fnName then
          .ok { a with
            st := { a.st with
                      code := a.st.code ++ [.defineOpen fnName],
                      definedInner := a.st.definedInner ++ [fnName] },
            closeTop := .defineClose :: a.closeTop }
        else .error (.invalidFnName fnName)
      else .error (.unexpectedAttr q)
    | none => .error (.unexpectedAttr q)

def applyAttrs (a : AttrState) : List Str → Except CErr AttrState
  | [] => .ok a
  | q :: qs =>
    match applyAttr a q with
    | .ok a2 => applyAttrs a2 qs
    | .error e => .error e

/-- The `use` block (lines 181-207): emitted only when `callExpr` is set
and truthy; self-closing tags call immediately with the
`{content: ""}`-merged default, paired tags open a capture scope and queue
the call with the `{content: _$out}`-merged default.  `partialContext` is
assigned the default when it was falsy, as in the source. -/
def applyUse (a : AttrState) (selfClosing : Bool) : AttrState :=
  match a.callExpr with
  | none => a
  | some e =>
    if e = [] then a
    else if selfClosing then
      let ctx := ctxOrDefault a.partialCtx .mergeEmptyContent
      { a with st := { a.st with code := a.st.code ++ [.callFn e ctx] },
               partialCtx := some ctx }
    else
      let ctx := ctxOrDefault a.partialCtx .mergeCapturedContent
      { a with st := { a.st with code := a.st.code ++ [.captureOpen] },
               closeTop := .captureCallFn e ctx :: a.closeTop,
               partialCtx := some ctx }

/-- Emission for a `partial`/`wrap` reference (lines 232-257), after the
registry bookkeeping: self-closing renders immediately with the
`{content: ""}`-merged default; paired opens a capture scope and queues
the render whose no-context default is only the currently defined
function names plus the captured content. -/
def applyPartialEmit (a : AttrState) (selfClosing : Bool) (fullPath : Str) : AttrState :=
  if selfClosing then
    let ctx := ctxOrDefault a.partialCtx .mergeEmptyContent
    { a with st := { a.st with code := a.st.code ++ [.emitPartial fullPath ctx] },
             partialCtx := some ctx }
  else
    let ctx := ctxOrDefault a.partialCtx (.definedWithContent a.st.definedInner)
    { a with st := { a.st with code := a.st.code ++ [.captureOpen] },
             closeTop := .capClosePartial fullPath ctx :: a.closeTop,
             partialCtx := some ctx }

/-- The self-closing test of an open tag (line 133). -/
def tagSelfClosing (p : Str) : Bool := (attrPieces p).getLast? = some ("/>".toList)

/-- Pop the tag (line 261-264) or leave the queued closings on the
`closeCode` stack for the matching `</template>`. -/
def finishTag (a : AttrState) (selfClosing : Bool) : CState :=
  if selfClosing then
    { a.st with nesting := a.st.nesting.tail, code := a.st.code ++ a.closeTop }
  else
    { a.st with closeCode := a.closeTop :: a.st.closeCode }

/-- The main parse loop of `_compileAsync` (lines 92-276), fuelled: every
step consumes one unit, including the recursive compilation of a newly
registered partial (line 230), whose own syntax errors are *not*
propagated into this compilation (the source stores the partial's
`_compiledP` without awaiting it), while its registry and load effects
are kept. -/
def processParts (fs : Str → Option Str) :
    Nat → Option Str → List Str → CState → PState → PState × Except CErr CState
  | 0, _, _, _, ps => (ps, .error .outOfFuel)
  | _ + 1, _, [], st, ps =>
    match st.nesting with
    | [] => (ps, .ok st)
    | tag :: _ => (ps, .error (.unclosedTemplate tag))
  | fuel + 1, fileName, p :: rest, st, ps =>
    if testScriptOpen p then
      let g := gatherScript rest
      let st2 :=
        if hasInTemplateAttr p then
          { st with code := st.code ++ [.execStmt (withSemi g.1)] }
        else
          { st with code := st.code ++ [.emitLit (p ++ g.1 ++ (g.2.1.getD []))] }
      processParts fs fuel fileName g.2.2 st2 ps
    else if testTemplateTag p then
      if secondIsSlash p then
        match st.nesting with
        | [] => (ps, .error .unexpectedClose)
        | _ :: ns =>
          processParts fs fuel fileName rest
            { st with nesting := ns,
                      code := st.code ++ st.closeCode.headD [],
                      closeCode := st.closeCode.tail } ps
      else
        let pieces := attrPieces p
        let selfClosing := tagSelfClosing p
        let a0 : AttrState :=
          { st := { st with nesting := p :: st.nesting }, closeTop := [],
            callExpr := none, partialCtx := none, pPath := [] }
        match applyAttrs a0 pieces.dropLast with
        | .error e => (ps, .error e)
        | .ok a1 =>
          let a2 := applyUse a1 selfClosing
          if a2.pPath = [] then
            processParts fs fuel fileName rest (finishTag a2 selfClosing) ps
          else
            match fileName with
            | none => (ps, .error .noFileName)
            | some fn =>
              let fullPath := joinPath (dirname fn) a2.pPath
              let ps2 :=
                if fullPath ∈ ps.reg then ps
                else
                  let ps1 : PState :=
                    { reg := ps.reg ++ [fullPath], loads := ps.loads ++ [fullPath] }
                  match fsRead fs fullPath with
                  | none => ps1
                  | some src2 =>
                    (processParts fs fuel (some fullPath) (tokenizeJS src2)
                      emptyCState ps1).1
              let a3 := applyPartialEmit a2 selfClosing fullPath
              processParts fs fuel fileName rest (finishTag a3 selfClosing) ps2
    else
      processParts fs fuel fileName rest
        { st with code := st.code ++ parseLiteral p.length p } ps

/-- `_compileAsync` for one template source: tokenize, then run the parse
loop from the empty state. -/
def compileTemplate (fs : Str → Option Str) (fuel : Nat) (fileName : Option Str)
    (src : Str) (ps : PState) : PState × Except CErr CState :=
  processParts fs fuel fileName (tokenizeJS src) emptyCState ps

/-! ## The render executor

The generated code runs under the hosting JavaScript engine; expression
evaluation, `if`/`for`/`while` control decisions and `in-template`
statement effects are delegated to it (spec §2: the evaluator is an
external leaf).  The executor below interprets the instruction sequence
with those delegated parts supplied as oracles. -/

/-- Runtime values: the executor distinguishes callable functions
(`typeof f === "function"`), objects (contexts), strings, and an
`undefined` placeholder.  Functions are defunctionalized: a `define`d
mixin is a closure over its instruction body and the function environment
at its declaration; a function produced by the external evaluator is an
opaque tag applied through the oracle. -/
inductive Value where
  | vStr (s : Str)
  | vObj (fields : List (Str × Value))
  | vFnDef (body : List Instr) (env : List (Str × Value))
  | vFnExt (tag : Str)
  | vUndef

/-- `typeof v === "function"` (lines 191, 203). -/
def isFnValue : Value → Bool
  | .vFnDef _ _ => true
  | .vFnExt _ => true
  | _ => false

/-- JS stringification as used by `_$out +=` and `String(s)` inside
`_toHtml` (function source text abbreviated). -/
def stringify : Value → Str
  | .vStr s => s
  | .vObj _ => "[object Object]".toList
  | .vFnDef _ _ => "function".toList
  | .vFnExt _ => "function".toList
  | .vUndef => "undefined".toList

/-- Property lookup; first match wins, so earlier fields shadow later
ones. -/
def lookupField (fields : List (Str × Value)) (k : Str) : Option Value :=
  match fields with
  | [] => none
  | (k2, v) :: rest => if k2 = k then some v else lookupField rest k

def vKeys : Value → List Str
  | .vObj fields => fields.map Prod.fst
  | _ => []

def vLookup (v : Value) (k : Str) : Option Value :=
  match v with
  | .vObj fields => lookupField fields k
  | _ => none

/-- `Object.assign(target, source)`: source properties overwrite the
target's (the source fields are placed in front so first-match lookup
prefers them). -/
def objAssign (target source : Value) : Value :=
  match target, source with
  | .vObj tf, .vObj sf => .vObj (sf ++ tf)
  | .vObj tf, _ => .vObj tf
  | t, _ => t

/-- Scope lookup for the identifier shorthand `{name, ...}` of the
paired-partial default context: resolves to the `define`d function. -/
def envLookup (env : List (Str × Value)) (n : Str) : Value :=
  match env with
  | [] => .vUndef
  | (k, v) :: rest => if k = n then v else envLookup rest n

/-- External oracles: the embedded expression evaluator, the rendering of
a registered partial (`_$partials[path].renderAsync`), application of an
evaluator-supplied function, the number of body executions the engine
performs for an `if`/`for`/`while` header, and the context effect of an
`in-template` statement. -/
structure RenderOracle where
  ev : Str → Value → List (Str × Value) → Value
  pf : Str → Value → Str
  extApply : Str → Value → Str
  iters : ScopeKind → Str → Value → Nat
  sfx : Str → Value → Value

/-- Context derivation at a call site (lines 184-205, 232-256). -/
def deriveCtx (O : RenderOracle) (cs : CtxSpec) (captured : Str) (ctx : Value)
    (env : List (Str × Value)) : Value :=
  match cs with
  | .explicitE e => O.ev e ctx env
  | .mergeEmptyContent => objAssign (.vObj [("content".toList, .vStr [])]) ctx
  | .mergeCapturedContent => objAssign (.vObj [("content".toList, .vStr captured)]) ctx
  | .definedWithContent names =>
      .vObj ((names.map fun n => (n, envLookup env n)) ++
             [("content".toList, .vStr captured)])

/-- Executor state: the stack of live `_$out` accumulators (head = the
innermost), the render context, and the functions installed by
`define`. -/
structure RState where
  outs : List Str
  ctx : Value
  env : List (Str × Value)

/-- `_$out += s` on the current accumulator. -/
def appendOut (st : RState) (s : Str) : RState :=
  match st.outs with
  | [] => st
  | o :: rest => { st with outs := (o ++ s) :: rest }

def isOpenInstr : Instr → Bool
  | .scopeOpen _ _ => true
  | .defineOpen _ => true
  | .captureOpen => true
  | _ => false

def isCloseInstr : Instr → Bool
  | .scopeClose => true
  | .defineClose => true
  | .captureCallFn _ _ => true
  | .capClosePartial _ _ => true
  | _ => false

/-- Find the matching close for an already-seen open: returns the body
(without the close) and the instructions after the close. -/
def splitScope : List Instr → Nat → List Instr → Option (List Instr × List Instr)
  | [], _, _ => none
  | i :: rest, d, acc =>
    if isCloseInstr i then
      if d = 0 then some (acc.reverse, rest)
      else splitScope rest (d - 1) (i :: acc)
    else if isOpenInstr i then splitScope rest (d + 1) (i :: acc)
    else splitScope rest d (i :: acc)

/-- Fuelled interpreter, one instruction per step in program order.  A
scope body is unrolled the number of times the engine's control flow runs
it; a `define` installs a closure over its body without executing it; the
capture instructions push and pop accumulators exactly as the generated
async IIFEs do; a call appends the called function's output — or the
empty string when the value is not a function — strictly after it is
available. -/
def exec (O : RenderOracle) : Nat → List Instr → RState → RState
  | 0, _, st => st
  | _ + 1, [], st => st
  | fuel + 1, i :: rest, st =>
    match i with
    | .emitLit s => exec O fuel rest (appendOut st s)
    | .emitExpr e esc =>
      let v := O.ev e st.ctx st.env
      exec O fuel rest
        (appendOut st (if esc then toHtml (stringify v) else stringify v))
    | .execStmt js => exec O fuel rest { st with ctx := O.sfx js st.ctx }
    | .scopeOpen k e =>
      match splitScope rest 0 [] with
      | none => st
      | some (body, after) =>
        exec O fuel ((List.replicate (O.iters k e st.ctx) body).flatten ++ after) st
    | .scopeClose => exec O fuel rest st
    | .defineOpen n =>
      match splitScope rest 0 [] with
      | none => st
      | some (body, after) =>
        exec O fuel after { st with env := (n, .vFnDef body st.env) :: st.env }
    | .defineClose => exec O fuel rest st
    | .callFn e cs =>
      let fv := O.ev e st.ctx st.env
      let dctx := deriveCtx O cs [] st.ctx st.env
      let out := match fv with
        | .vFnDef body env => (exec O fuel body { outs := [[]], ctx := dctx, env := env }).outs.headD []
        | .vFnExt tg => O.extApply tg dctx
        | _ => []
      exec O fuel rest (appendOut st out)
    | .captureOpen => exec O fuel rest { st with outs := [] :: st.outs }
    | .captureCallFn e cs =>
      match st.outs with
      | captured :: o :: os =>
        let fv := O.ev e st.ctx st.env
        let dctx := deriveCtx O cs captured st.ctx st.env
        let out := match fv with
          | .vFnDef body env => (exec O fuel body { outs := [[]], ctx := dctx, env := env }).outs.headD []
          | .vFnExt tg => O.extApply tg dctx
          | _ => []
        exec O fuel rest { st with outs := (o ++ out) :: os }
      | _ => st
    | .emitPartial path cs =>
      exec O fuel rest (appendOut st (O.pf path (deriveCtx O cs [] st.ctx st.env)))
    | .capClosePartial path cs =>
      match st.outs with
      | captured :: o :: os =>
        exec O fuel rest
          { st with outs := (o ++ O.pf path (deriveCtx O cs captured st.ctx st.env)) :: os }
      | _ => st

/-- Run a compiled program against a context: one fresh top-level
accumulator, empty function environment, result is the final `_$out`. -/
def renderProgram (O : RenderOracle) (fuel : Nat) (prog : List Instr) (ctx : Value) : Str :=
  (exec O fuel prog { outs := [[]], ctx := ctx, env := [] }).outs.headD []

/-! ## `Template.fromFile` and the module-level cache (lines 33-56)

`fromFile` resolves the path, returns the cached instance unless the
cache is bypassed, and otherwise constructs the read promise (the read
request — the promise is created before anything awaits it, and the
cache entry is installed synchronously before the read completes, so a
second call arriving while the first load is still pending already hits
the cache and triggers no second read), builds the `Template`, and caches
it unless bypassed. -/

structure TemplateInst where
  id : Nat
  fileName : Str
deriving Repr, DecidableEq

structure CacheState where
  cache : List (Str × TemplateInst)
  nextId : Nat
  reads : List Str
deriving Repr, DecidableEq

/-- `path.resolve` (normalization abstracted: a deterministic function of
the given file name). -/
def pathResolve (p : Str) : Str := p

def cacheLookup (c : List (Str × TemplateInst)) (k : Str) : Option TemplateInst :=
  match c with
  | [] => none
  | (k2, v) :: rest => if k2 = k then some v else cacheLookup rest k

def fromFile (st : CacheState) (fileName : Str) (ignoreCache : Bool) :
    TemplateInst × CacheState :=
  let absolutePath := pathResolve fileName
  match (if ignoreCache then none else cacheLookup st.cache absolutePath) with
  | some t => (t, st)
  | none =>
    let t : TemplateInst := { id := st.nextId, fileName := absolutePath }
    (t, { cache := if ignoreCache then st.cache else st.cache ++ [(absolutePath, t)],
          nextId := st.nextId + 1,
          reads := st.reads ++ [absolutePath] })

/-- `renderAsync` of a file-backed template: source from the file system,
compiled once, run against the context.  (The post-render minifier is the
same deterministic external function for every instance, so it is
omitted from the output comparison.)  `none` models a rejected promise
(unreadable file, compile error). -/
def renderFile (fs : Str → Option Str) (O : RenderOracle) (fuel : Nat)
    (t : TemplateInst) (ctx : Value) : Option Str :=
  match fs t.fileName with
  | none => none
  | some src =>
    match (compileTemplate fs fuel (some t.fileName) src { reg := [], loads := [] }).2 with
    | .ok st => some (renderProgram O fuel st.code ctx)
    | .error _ => none

/-! ## Claim theorems -/

/-- A trivial concrete oracle for instantiating render facts. -/
def oracle0 : RenderOracle :=
  { ev := fun _ _ _ => .vStr "a&b".toList, pf := fun _ _ => [],
    extApply := fun _ _ => [], iters := fun _ _ _ => 0, sfx := fun _ c => c }

/-- A fresh attribute-processing state over the empty compile state. -/
def attrState0 : AttrState :=
  { st := emptyCState, closeTop := [], callExpr := none,
    partialCtx := none, pPath := [] }

/-- C1: a value rendered through a `{{ expr }}` marker in literal text is
emitted as its stringified form with `&` replaced by `&amp;`, `<` by
`&lt;` and `>` by `&gt;` (the chained replacements of `_toHtml` equal this
simultaneous replacement); the same value rendered through
`<template html="expr">` is emitted as its stringified form with no
replacement: markers compile to escaped expression emissions, the `html`
attribute compiles to a raw one, and the executor appends `_toHtml` of
the stringified value for the former and the bare stringified value for
the latter. -/
theorem C1_marker_escaped_html_raw :
    (∀ s : Str, toHtml s = htmlEscapeSim s) ∧
    (∀ (O : RenderOracle) (fuel : Nat) (e : Str) (rest : List Instr) (st : RState),
      exec O (fuel + 1) (.emitExpr e true :: rest) st =
        exec O fuel rest (appendOut st (toHtml (stringify (O.ev e st.ctx st.env)))) ∧
      exec O (fuel + 1) (.emitExpr e false :: rest) st =
        exec O fuel rest (appendOut st (stringify (O.ev e st.ctx st.env)))) ∧
    (∀ (fuel : Nat) (text b i a : Str), findMarker text = some (b, i, a) →
      parseLiteral (fuel + 1) text =
        .emitLit b :: .emitExpr i true :: parseLiteral fuel a) ∧
    (∀ (a : AttrState) (q : Str), q ≠ [] → attrNameOf q = some ("html".toList) →
      applyAttr a q = .ok { a with
        st := { a.st with
                  code := a.st.code ++ [.emitExpr (jsTrim (getAttr q false)) false] } }) := by
  refine ⟨toHtml_eq_htmlEscapeSim, fun O fuel e rest st => ⟨rfl, rfl⟩, ?_, ?_⟩
  · intro fuel text b i a h
    simp only [parseLiteral, h]
  · intro a q hq hname
    simp only [applyAttr, if_neg hq, hname]
    rw [if_neg (by decide), if_neg (by decide), if_neg (by decide), if_pos (by decide)]

theorem C1_marker_escaped_html_raw_witness :
    parseLiteral 1 ("\x7b\x7bx\x7d\x7d".toList) =
      [.emitLit [], .emitExpr ['x'] true, .emitLit []] ∧
    applyAttr attrState0 ("html=\"y\"".toList) = .ok { attrState0 with
      st := { attrState0.st with code := [.emitExpr ['y'] false] } } := by
  constructor
  · have h := C1_marker_escaped_html_raw.2.2.1 0 ("\x7b\x7bx\x7d\x7d".toList) [] ['x'] []
      (by decide)
    rw [h]
    rfl
  · have h := C1_marker_escaped_html_raw.2.2.2 attrState0 ("html=\"y\"".toList)
      (by decide) (by decide)
    rw [h]
    rfl

theorem cacheLookup_append_self {c : List (Str × TemplateInst)} {k : Str}
    {t : TemplateInst} (h : cacheLookup c k = none) :
    cacheLookup (c ++ [(k, t)]) k = some t := by
  induction c with
  | nil => simp [cacheLookup]
  | cons p rest ih =>
    obtain ⟨k2, v⟩ := p
    simp only [cacheLookup, List.cons_append] at h ⊢
    split at h
    · simp at h
    · next hk =>
      rw [if_neg hk]
      exact ih h

/-- C5: with the cache not bypassed, a second `fromFile` for the same path
returns the very same instance and changes nothing — in particular only
the first call issues a read request, and since the cache entry is
installed synchronously, this holds even when the second call arrives
before the pending load completes; bypassing the cache returns a fresh
instance (different identity) whose render output on every file system,
oracle and context equals the cached instance's. -/
theorem C5_fromFile_cache :
    ∀ (s0 : CacheState) (f : Str),
      cacheLookup s0.cache (pathResolve f) = none →
      (fromFile (fromFile s0 f false).2 f false).1 = (fromFile s0 f false).1 ∧
      (fromFile s0 f false).2.reads = s0.reads ++ [pathResolve f] ∧
      (fromFile (fromFile s0 f false).2 f false).2 = (fromFile s0 f false).2 ∧
      (fromFile (fromFile s0 f false).2 f true).1.id ≠ (fromFile s0 f false).1.id ∧
      (∀ (fs : Str → Option Str) (O : RenderOracle) (fuel : Nat) (ctx : Value),
        renderFile fs O fuel (fromFile (fromFile s0 f false).2 f true).1 ctx =
          renderFile fs O fuel (fromFile s0 f false).1 ctx) := by
  intro s0 f h
  have h1 : fromFile s0 f false =
      ({ id := s0.nextId, fileName := pathResolve f },
       { cache := s0.cache ++ [(pathResolve f, { id := s0.nextId, fileName := pathResolve f })],
         nextId := s0.nextId + 1,
         reads := s0.reads ++ [pathResolve f] }) := by
    simp only [fromFile, if_neg (Bool.false_ne_true), h]
  have h2 : cacheLookup (s0.cache ++
      [(pathResolve f, ({ id := s0.nextId, fileName := pathResolve f } : TemplateInst))])
      (pathResolve f) =
      some { id := s0.nextId, fileName := pathResolve f } := cacheLookup_append_self h
  refine ⟨?_, ?_, ?_, ?_, ?_⟩
  · rw [h1]
    simp only [fromFile, if_neg (Bool.false_ne_true), h2]
  · rw [h1]
  · rw [h1]
    simp only [fromFile, if_neg (Bool.false_ne_true), h2]
  · rw [h1]
    simp only [fromFile]
    simp
  · intro fs O fuel ctx
    rw [h1]
    simp only [fromFile]
    rfl

theorem C5_fromFile_cache_witness :
    (fromFile (fromFile { cache := [], nextId := 0, reads := [] } "f".toList false).2
        "f".toList false).1 =
      (fromFile { cache := [], nextId := 0, reads := [] } "f".toList false).1 ∧
    (fromFile { cache := [], nextId := 0, reads := [] } "f".toList false).2.reads =
      ["f".toList] := by
  have h := C5_fromFile_cache { cache := [], nextId := 0, reads := [] } "f".toList (by decide)
  exact ⟨h.1, h.2.1⟩

/-- C6 counterexample: the `define` attribute does not accept a
`{{ }}`-wrapped value the way it accepts the raw value — `getAttr` is
called with `noBraces` for `define`/`partial`/`wrap`, so the braces are
kept and the identifier check rejects the wrapped form that the raw form
passes. -/
theorem C6_counterexample :
    (compileTemplate (fun _ => none) 20 none ("<template define=\"hi\" />".toList)
      { reg := [], loads := [] }).2 =
      .ok { code := [.emitLit [], .defineOpen "hi".toList, .defineClose, .emitLit []],
            nesting := [], closeCode := [], definedInner := ["hi".toList] } ∧
    (compileTemplate (fun _ => none) 20 none
      ("<template define=\"\x7b\x7bhi\x7d\x7d\" />".toList) { reg := [], loads := [] }).2 =
      .error (.invalidFnName "\x7b\x7bhi\x7d\x7d".toList) := ⟨rfl, rfl⟩

def mkAttrPiece (name v : Str) : Str := name ++ '=' :: '"' :: (v ++ ['"'])

theorem afterFirstQuote_mk {name v : Str} (hn : ¬ '"' ∈ name) :
    afterFirstQuote (name ++ '=' :: '"' :: v) = some v := by
  induction name with
  | nil => simp [afterFirstQuote]
  | cons c cs ih =>
    simp only [List.mem_cons, not_or] at hn
    simp only [List.cons_append, afterFirstQuote]
    rw [if_neg (fun hc => hn.1 hc.symm)]
    exact ih hn.2

theorem getAttr_mk (name v : Str) (hn : ¬ '"' ∈ name) (nb : Bool) :
    getAttr (mkAttrPiece name v) nb =
      if !nb && bracesWrapped v then (v.drop 2).dropLast.dropLast else v := by
  have hdl : (mkAttrPiece name v).dropLast = name ++ '=' :: '"' :: v := by
    have h0 : mkAttrPiece name v = (name ++ '=' :: '"' :: v) ++ ['"'] := by
      simp [mkAttrPiece]
    rw [h0, List.dropLast_concat]
  simp only [getAttr, hdl, jsStripToQuote, afterFirstQuote_mk hn, Option.getD_some]

/-- C6 (amended): an attribute value written raw and the same value
wrapped in `{{ }}` are read identically for the attributes whose values
pass through brace-unwrapping (`if`, `for`, `while`, `html`, `use`,
`context`); but for `define`, `partial` and `wrap` the source calls
`getAttr` with `noBraces`, so the value is taken verbatim and a wrapped
value keeps its braces (hence, e.g., a wrapped `define` name is rejected
while the raw one is accepted — see the counterexample). -/
theorem C6_attr_braces_amended :
    (∀ name v : Str, ¬ '"' ∈ name → getAttr (mkAttrPiece name v) true = v) ∧
    (∀ name v : Str, ¬ '"' ∈ name →
      bracesWrapped ('{' :: '{' :: (v ++ ['}', '}'])) = true →
      bracesWrapped v = false →
      getAttr (mkAttrPiece name ('{' :: '{' :: (v ++ ['}', '}']))) false =
        getAttr (mkAttrPiece name v) false) ∧
    (compileTemplate (fun _ => none) 20 none
        ("<template if=\"\x7b\x7b x \x7d\x7d\" />".toList) { reg := [], loads := [] } =
      compileTemplate (fun _ => none) 20 none ("<template if=\"x\" />".toList)
        { reg := [], loads := [] }) := by
  refine ⟨?_, ?_, rfl⟩
  · intro name v hn
    rw [getAttr_mk name v hn true]
    simp
  · intro name v hn hw hr
    rw [getAttr_mk name _ hn false, getAttr_mk name v hn false]
    simp only [Bool.not_false, Bool.true_and, hw, hr, if_true, if_false]
    have h0 : ('{' :: '{' :: (v ++ ['}', '}'])).drop 2 = v ++ ['}', '}'] := rfl
    have h1 : v ++ ['}', '}'] = (v ++ ['}']) ++ ['}'] := by simp
    rw [h0, h1, List.dropLast_concat, List.dropLast_concat]
    simp

theorem C6_attr_braces_amended_witness :
    getAttr (mkAttrPiece "define".toList "\x7b\x7bhi\x7d\x7d".toList) true =
      "\x7b\x7bhi\x7d\x7d".toList ∧
    getAttr (mkAttrPiece "if".toList ('{' :: '{' :: ("x".toList ++ ['}', '}']))) false =
      getAttr (mkAttrPiece "if".toList "x".toList) false := by
  constructor
  · exact C6_attr_braces_amended.1 "define".toList "\x7b\x7bhi\x7d\x7d".toList (by decide)
  · exact C6_attr_braces_amended.2.1 "if".toList "x".toList (by decide) (by decide) (by decide)

theorem appendOut_nil (st : RState) : appendOut st [] = st := by
  obtain ⟨outs, ctx, env⟩ := st
  simp only [appendOut]
  match outs with
  | [] => rfl
  | o :: rest => simp

/-- C10: for a `use` call whose expression evaluates to a non-function,
the render appends the empty string — the state is unchanged for the
self-closing form, and for the paired form the captured inner accumulator
is popped and discarded — and execution continues with the next
instruction (the interpreter is total: no error is raised).  The two
closed conjuncts show the two tag forms compiling to exactly these
instructions. -/
theorem C10_use_nonfunction :
    (∀ (O : RenderOracle) (fuel : Nat) (e : Str) (cs : CtxSpec) (rest : List Instr)
      (st : RState), isFnValue (O.ev e st.ctx st.env) = false →
      exec O (fuel + 1) (.callFn e cs :: rest) st = exec O fuel rest st ∧
      (∀ captured po os, st.outs = captured :: po :: os →
        exec O (fuel + 1) (.captureCallFn e cs :: rest) st =
          exec O fuel rest { st with outs := po :: os })) ∧
    (compileTemplate (fun _ => none) 20 none ("<template use=\"f\" />".toList)
        { reg := [], loads := [] }).2 =
      .ok { code := [.emitLit [], .callFn "f".toList .mergeEmptyContent, .emitLit []],
            nesting := [], closeCode := [], definedInner := [] } ∧
    (compileTemplate (fun _ => none) 20 none ("<template use=\"f\">W</template>".toList)
        { reg := [], loads := [] }).2 =
      .ok { code := [.emitLit [], .captureOpen, .emitLit ['W'],
                     .captureCallFn "f".toList .mergeCapturedContent, .emitLit []],
            nesting := [], closeCode := [], definedInner := [] } := by
  refine ⟨?_, rfl, rfl⟩
  intro O fuel e cs rest st hfn
  constructor
  · match hv : O.ev e st.ctx st.env with
    | .vStr s =>
      simp only [exec, hv]
      rw [appendOut_nil]
    | .vObj fs2 =>
      simp only [exec, hv]
      rw [appendOut_nil]
    | .vUndef =>
      simp only [exec, hv]
      rw [appendOut_nil]
    | .vFnDef b env2 => rw [hv] at hfn; simp [isFnValue] at hfn
    | .vFnExt tg => rw [hv] at hfn; simp [isFnValue] at hfn
  · intro captured po os houts
    match hv : O.ev e st.ctx st.env with
    | .vStr s =>
      simp only [exec, houts, hv]
      simp
    | .vObj fs2 =>
      simp only [exec, houts, hv]
      simp
    | .vUndef =>
      simp only [exec, houts, hv]
      simp
    | .vFnDef b env2 => rw [hv] at hfn; simp [isFnValue] at hfn
    | .vFnExt tg => rw [hv] at hfn; simp [isFnValue] at hfn

theorem C10_use_nonfunction_witness :
    exec oracle0 1 [.callFn "f".toList .mergeEmptyContent]
      { outs := [[]], ctx := .vObj [], env := [] } =
      { outs := [[]], ctx := .vObj [], env := [] } ∧
    exec oracle0 1 [.captureCallFn "f".toList .mergeCapturedContent]
      { outs := ["W".toList, "A".toList], ctx := .vObj [], env := [] } =
      { outs := ["A".toList], ctx := .vObj [], env := [] } := by
  have h := C10_use_nonfunction.1 oracle0 0 "f".toList .mergeEmptyContent []
    { outs := [[]], ctx := .vObj [], env := [] } (by decide)
  have h2 := C10_use_nonfunction.1 oracle0 0 "f".toList .mergeCapturedContent []
    { outs := ["W".toList, "A".toList], ctx := .vObj [], env := [] } (by decide)
  exact ⟨h.1, h2.2 "W".toList "A".toList [] rfl⟩

/-- C3: the partial-tag compile facts.  With definitions `st.definedInner`
accumulated so far, a paired `<template partial="x">` without `context`
queues a partial render whose context spec is exactly
`definedWithContent st.definedInner`; the three other default cases
(self-closing partial, and both `use` forms) use the
`Object.assign({content: ...}, context)` merges.  At render time the
`definedWithContent` context contains exactly the defined names plus
`content` — no other property of the surrounding context — while the
merge forms contain `content` plus every property of the surrounding
context. -/
theorem C3_partial_default_context :
    (∀ (fs : Str → Option Str) (fuel : Nat) (rest : List Str) (st : CState) (ps : PState),
      ps.reg = ["/d/x".toList] →
      processParts fs (fuel + 1) (some "/d/m".toList)
          (("<template partial=\"x\">".toList) :: rest) st ps =
        processParts fs fuel (some "/d/m".toList) rest
          { st with nesting := "<template partial=\"x\">".toList :: st.nesting,
                    code := st.code ++ [.captureOpen],
                    closeCode := [.capClosePartial "/d/x".toList
                      (.definedWithContent st.definedInner)] :: st.closeCode } ps) ∧
    (∀ (fs : Str → Option Str) (fuel : Nat) (rest : List Str) (st : CState) (ps : PState),
      ps.reg = ["/d/x".toList] →
      processParts fs (fuel + 1) (some "/d/m".toList)
          (("<template partial=\"x\" />".toList) :: rest) st ps =
        processParts fs fuel (some "/d/m".toList) rest
          { st with code := st.code ++ [.emitPartial "/d/x".toList .mergeEmptyContent] } ps) ∧
    (∀ (fs : Str → Option Str) (fuel : Nat) (fn : Option Str) (rest : List Str)
      (st : CState) (ps : PState),
      processParts fs (fuel + 1) fn (("<template use=\"f\">".toList) :: rest) st ps =
        processParts fs fuel fn rest
          { st with nesting := "<template use=\"f\">".toList :: st.nesting,
                    code := st.code ++ [.captureOpen],
                    closeCode := [.captureCallFn "f".toList .mergeCapturedContent]
                      :: st.closeCode } ps) ∧
    (∀ (fs : Str → Option Str) (fuel : Nat) (fn : Option Str) (rest : List Str)
      (st : CState) (ps : PState),
      processParts fs (fuel + 1) fn (("<template use=\"f\" />".toList) :: rest) st ps =
        processParts fs fuel fn rest
          { st with code := st.code ++ [.callFn "f".toList .mergeEmptyContent] } ps) ∧
    (∀ (O : RenderOracle) (names : List Str) (cap : Str) (ctx : Value)
      (env : List (Str × Value)),
      vKeys (deriveCtx O (.definedWithContent names) cap ctx env) =
        names ++ ["content".toList] ∧
      (∀ k, k ∈ vKeys ctx → ¬ k ∈ names → k ≠ "content".toList →
        ¬ k ∈ vKeys (deriveCtx O (.definedWithContent names) cap ctx env))) ∧
    (∀ (O : RenderOracle) (cap : Str) (fields : List (Str × Value))
      (env : List (Str × Value)),
      vKeys (deriveCtx O .mergeCapturedContent cap (.vObj fields) env) =
        fields.map Prod.fst ++ ["content".toList] ∧
      vKeys (deriveCtx O .mergeEmptyContent cap (.vObj fields) env) =
        fields.map Prod.fst ++ ["content".toList]) := by
  refine ⟨?_, ?_, ?_, ?_, ?_, ?_⟩
  · intro fs fuel rest st ps hreg
    obtain ⟨reg, loads⟩ := ps
    simp only at hreg
    subst hreg
    rfl
  · intro fs fuel rest st ps hreg
    obtain ⟨reg, loads⟩ := ps
    simp only at hreg
    subst hreg
    have h1 : processParts fs (fuel + 1) (some "/d/m".toList)
        (("<template partial=\"x\" />".toList) :: rest) st
        { reg := ["/d/x".toList], loads := loads } =
      processParts fs fuel (some "/d/m".toList) rest
        { st with code := (st.code ++ [.emitPartial "/d/x".toList .mergeEmptyContent]) ++ [] }
        { reg := ["/d/x".toList], loads := loads } := rfl
    rw [h1, List.append_nil]
  · intro fs fuel fn rest st ps
    rfl
  · intro fs fuel fn rest st ps
    have h1 : processParts fs (fuel + 1) fn (("<template use=\"f\" />".toList) :: rest) st ps =
      processParts fs fuel fn rest
        { st with code := (st.code ++ [.callFn "f".toList .mergeEmptyContent]) ++ [] } ps := rfl
    rw [h1, List.append_nil]
  · intro O names cap ctx env
    have hmap : List.map Prod.fst (names.map fun n => (n, envLookup env n)) = names := by
      rw [List.map_map]
      rw [show (Prod.fst ∘ fun n => (n, envLookup env n)) = id from rfl]
      exact List.map_id names
    constructor
    · simp only [deriveCtx, vKeys, List.map_append, hmap]
      rfl
    · intro k hk hkn hkc
      simp only [deriveCtx, vKeys, List.map_append, hmap, List.map_cons, List.map_nil,
        List.mem_append, List.mem_cons, List.not_mem_nil, or_false]
      rintro (hn | h2)
      · exact hkn hn
      · exact hkc h2
  · intro O cap fields env
    constructor
    · simp [deriveCtx, vKeys, objAssign]
    · simp [deriveCtx, vKeys, objAssign]

theorem C3_partial_default_context_witness :
    processParts (fun _ => none) 5 (some "/d/m".toList)
        ["<template partial=\"x\">".toList] emptyCState
        { reg := ["/d/x".toList], loads := [] } =
      ({ reg := ["/d/x".toList], loads := [] },
       .error (.unclosedTemplate ("<template partial=\"x\">".toList))) ∧
    ¬ "y".toList ∈ vKeys (deriveCtx oracle0 (.definedWithContent ["hi".toList]) "W".toList
        (.vObj [("y".toList, .vUndef)]) []) := by
  constructor
  · have h := C3_partial_default_context.1 (fun _ => none) 4 [] emptyCState
      { reg := ["/d/x".toList], loads := [] } rfl
    rw [h]
    rfl
  · exact (C3_partial_default_context.2.2.2.2.1 oracle0 ["hi".toList] "W".toList
      (.vObj [("y".toList, .vUndef)]) []).2 "y".toList (by decide) (by decide) (by decide)

/-- C7: a template without an origin identifier cannot use
`partial`/`wrap`.  First: a compilation with no file name never touches
the partial registry or issues any read (no resolution or load is even
attempted).  Second: for any source made of literal parts followed by a
`partial` tag, compilation fails with the no-file-name error. -/
theorem C7_no_filename :
    (∀ (fs : Str → Option Str) (fuel : Nat) (parts : List Str) (st : CState) (ps : PState),
      (processParts fs fuel none parts st ps).1 = ps) ∧
    (∀ (fs : Str → Option Str) (fuel : Nat) (lits rest : List Str)
      (st : CState) (ps : PState),
      (∀ p ∈ lits, testScriptOpen p = false ∧ testTemplateTag p = false) →
      processParts fs (lits.length + fuel + 1) none
          (lits ++ ("<template partial=\"x\">".toList) :: rest) st ps =
        (ps, .error .noFileName)) := by
  constructor
  · intro fs fuel
    induction fuel with
    | zero => intro parts st ps; rfl
    | succ fuel ih =>
      intro parts st ps
      match parts with
      | [] =>
        cases hn : st.nesting with
        | nil => simp [processParts, hn]
        | cons t ns => simp [processParts, hn]
      | p :: rest =>
        simp only [processParts]
        split
        · exact ih _ _ _
        · split
          · split
            · split
              · rfl
              · exact ih _ _ _
            · split
              · rfl
              · split
                · exact ih _ _ _
                · rfl
          · exact ih _ _ _
  · intro fs fuel lits
    induction lits with
    | nil =>
      intro rest st ps hl
      rfl
    | cons p lits ih =>
      intro rest st ps hl
      have hp := hl p (by simp)
      have harith : (p :: lits).length + fuel + 1 = (lits.length + fuel + 1) + 1 := by
        simp only [List.length_cons]
        omega
      rw [harith]
      simp only [List.cons_append, processParts, hp.1, hp.2, Bool.false_eq_true, if_false]
      exact ih rest _ ps (fun q hq => hl q (by simp [hq]))

theorem C7_no_filename_witness :
    (processParts (fun _ => none) 7 none ["ab".toList] emptyCState
      { reg := [], loads := [] }).1 = { reg := [], loads := [] } ∧
    processParts (fun _ => none) 2 none
        ["ab".toList, "<template partial=\"x\">".toList] emptyCState
        { reg := [], loads := [] } =
      ({ reg := [], loads := [] }, .error .noFileName) := by
  constructor
  · exact C7_no_filename.1 (fun _ => none) 7 ["ab".toList] emptyCState { reg := [], loads := [] }
  · have h := C7_no_filename.2 (fun _ => none) 0 ["ab".toList] [] emptyCState
      { reg := [], loads := [] } (by decide)
    exact h

/-- The only changes the executor can make to the accumulator stack:
append at the end of the current (innermost) accumulator, open a fresh
capture accumulator, or close the innermost capture and append its
call/render result at the end of its parent.  No step inserts output
ahead of existing output. -/
inductive OutStep : List Str → List Str → Prop
  | append (o : Str) (r : List Str) (s : Str) : OutStep (o :: r) ((o ++ s) :: r)
  | push (r : List Str) : OutStep r ([] :: r)
  | pop (t o : Str) (r : List Str) (s : Str) : OutStep (t :: o :: r) ((o ++ s) :: r)

def OutEvolve : List Str → List Str → Prop := Relation.ReflTransGen OutStep

theorem outEvolve_appendOut (st : RState) (s : Str) :
    OutEvolve st.outs (appendOut st s).outs := by
  obtain ⟨outs, ctx, env⟩ := st
  match outs with
  | [] => exact Relation.ReflTransGen.refl
  | o :: r => exact Relation.ReflTransGen.single (OutStep.append o r s)

theorem outEvolve_popStep (O : RenderOracle) (fuel : Nat) (rest : List Instr)
    (captured o : Str) (os : List Str) (ctx : Value) (env : List (Str × Value)) (out : Str)
    (ih : ∀ (prog : List Instr) (st : RState), OutEvolve st.outs (exec O fuel prog st).outs) :
    Relation.ReflTransGen OutStep (captured :: o :: os)
      (exec O fuel rest { outs := (o ++ out) :: os, ctx := ctx, env := env }).outs :=
  Relation.ReflTransGen.trans
    (Relation.ReflTransGen.single (OutStep.pop captured o os out))
    (ih rest { outs := (o ++ out) :: os, ctx := ctx, env := env })

/-- C9: output ordering within one render.  Every execution only evolves
the accumulator stack by end-appends, capture pushes, and capture pops
that append the awaited result at the end of the parent accumulator —
later instructions can never place output ahead of earlier output, and
each scope's accumulator is only appended to after the corresponding
value is available.  Instructions take effect strictly in program order
(the head instruction's effect is applied to the state before the rest
runs), and the render result is read off the final state only after the
full instruction sequence has been executed. -/
theorem C9_output_program_order :
    (∀ (O : RenderOracle) (fuel : Nat) (prog : List Instr) (st : RState),
      OutEvolve st.outs (exec O fuel prog st).outs) ∧
    (∀ (O : RenderOracle) (fuel : Nat) (s : Str) (rest : List Instr) (st : RState),
      exec O (fuel + 1) (.emitLit s :: rest) st = exec O fuel rest (appendOut st s)) ∧
    (∀ (O : RenderOracle) (fuel : Nat) (prog : List Instr) (ctx : Value),
      renderProgram O fuel prog ctx =
        (exec O fuel prog { outs := [[]], ctx := ctx, env := [] }).outs.headD []) := by
  refine ⟨?_, fun O fuel s rest st => rfl, fun O fuel prog ctx => rfl⟩
  intro O fuel
  induction fuel with
  | zero => intro prog st; exact Relation.ReflTransGen.refl
  | succ fuel ih =>
    intro prog st
    match prog with
    | [] => exact Relation.ReflTransGen.refl
    | i :: rest =>
      match i with
      | .emitLit s =>
        exact Relation.ReflTransGen.trans (outEvolve_appendOut st s) (ih rest _)
      | .emitExpr e esc =>
        exact Relation.ReflTransGen.trans (outEvolve_appendOut st _) (ih rest _)
      | .execStmt js =>
        show OutEvolve st.outs (exec O fuel rest { st with ctx := O.sfx js st.ctx }).outs
        exact ih rest { st with ctx := O.sfx js st.ctx }
      | .scopeOpen k e =>
        match hs : splitScope rest 0 [] with
        | none =>
          simp only [exec, hs]
          exact Relation.ReflTransGen.refl
        | some (body, after) =>
          simp only [exec, hs]
          exact ih _ _
      | .scopeClose => exact ih rest _
      | .defineOpen n =>
        match hs : splitScope rest 0 [] with
        | none =>
          simp only [exec, hs]
          exact Relation.ReflTransGen.refl
        | some (body, after) =>
          simp only [exec, hs]
          exact ih after
            { outs := st.outs, ctx := st.ctx, env := (n, Value.vFnDef body st.env) :: st.env }
      | .defineClose => exact ih rest _
      | .callFn e cs =>
        exact Relation.ReflTransGen.trans (outEvolve_appendOut st _) (ih rest _)
      | .captureOpen =>
        show OutEvolve st.outs (exec O fuel rest { st with outs := [] :: st.outs }).outs
        exact Relation.ReflTransGen.trans
          (Relation.ReflTransGen.single (OutStep.push st.outs))
          (ih rest { st with outs := [] :: st.outs })
      | .captureCallFn e cs =>
        match houts : st.outs with
        | [] =>
          simp only [exec, houts]
          exact Relation.ReflTransGen.refl
        | [x] =>
          simp only [exec, houts]
          rw [← houts]
          exact Relation.ReflTransGen.refl
        | captured :: o :: os =>
          simp only [exec, houts]
          exact outEvolve_popStep O fuel rest captured o os st.ctx st.env _ ih
      | .emitPartial path cs =>
        exact Relation.ReflTransGen.trans (outEvolve_appendOut st _) (ih rest _)
      | .capClosePartial path cs =>
        match houts : st.outs with
        | [] =>
          simp only [exec, houts]
          exact Relation.ReflTransGen.refl
        | [x] =>
          simp only [exec, houts]
          rw [← houts]
          exact Relation.ReflTransGen.refl
        | captured :: o :: os =>
          simp only [exec, houts]
          exact outEvolve_popStep O fuel rest captured o os st.ctx st.env _ ih

theorem scanAttrs_quoted {v : Str} (hv : ¬ '"' ∈ v) (rest : Str) :
    scanAttrs true (v ++ '"' :: '>' :: rest) = some (v ++ ['"'], rest) := by
  induction v with
  | nil => simp [scanAttrs]
  | cons c cs ih =>
    simp only [List.mem_cons, not_or] at hv
    simp only [List.cons_append, scanAttrs]
    rw [if_neg (fun h => hv.1 h.symm)]
    simp only [Bool.not_true, Bool.false_and, Bool.false_eq_true, if_false, List.append_eq]
    rw [ih hv.2]
    rfl

/-- The consumed parts of the script-gathering loop: the parts before the
first close-script part, whose concatenation is exactly the collected
`scriptContent`. -/
theorem gatherScript_struct : ∀ parts : List Str,
    ∃ consumed,
      parts = consumed ++
        (match (gatherScript parts).2.1 with | some c => [c] | none => []) ++
        (gatherScript parts).2.2 ∧
      (gatherScript parts).1 = strJoin consumed := by
  intro parts
  induction parts with
  | nil => exact ⟨[], rfl, rfl⟩
  | cons p rest ih =>
    by_cases hc : testScriptClose p
    · refine ⟨[], ?_, ?_⟩
      · simp [gatherScript, hc]
      · simp [gatherScript, hc, strJoin]
    · obtain ⟨consumed, h1, h2⟩ := ih
      refine ⟨p :: consumed, ?_, ?_⟩
      · simp only [gatherScript, if_neg hc]
        conv_lhs => rw [h1]
        simp
      · simp only [gatherScript, if_neg hc, h2, strJoin, List.flatten_cons]

/-- C8: the tokenizer.  (1) Concatenating its output reproduces the
source exactly.  (2) The output is a literal followed by alternating tag
captures and literals, and every captured tag is exactly one tag boundary
(it fully re-matches the tag regex on its own).  (3) A quoted attribute
value may contain `>` without ending the tag: for any quote-free `v` —
which may contain `>` — the regex consumes the whole
`<template a="v">`.  (4) The script-gathering loop consumes parts
verbatim up to the close-script boundary, its content being exactly their
concatenation, and (5) a non-`in-template` script block is emitted as a
single literal `openTag ++ content ++ closeTag` — never re-tokenized. -/
theorem C8_tokenizer_partition :
    (∀ src : Str, strJoin (tokenizeJS src) = src) ∧
    (∀ src : Str, TokShape (tokenizeJS src)) ∧
    (∀ (v rest : Str), ¬ '"' ∈ v →
      tryTag ("<template a=".toList ++ '"' :: (v ++ '"' :: '>' :: rest)) =
        some ("<template a=".toList ++ '"' :: (v ++ ['"', '>']), rest)) ∧
    (∀ parts : List Str,
      ∃ consumed,
        parts = consumed ++
          (match (gatherScript parts).2.1 with | some c => [c] | none => []) ++
          (gatherScript parts).2.2 ∧
        (gatherScript parts).1 = strJoin consumed) ∧
    (∀ (fs : Str → Option Str) (fuel : Nat) (fn : Option Str) (p : Str)
      (rest : List Str) (st : CState) (ps : PState),
      testScriptOpen p = true → hasInTemplateAttr p = false →
      processParts fs (fuel + 1) fn (p :: rest) st ps =
        processParts fs fuel fn (gatherScript rest).2.2
          { st with code := st.code ++
              [.emitLit (p ++ (gatherScript rest).1 ++ ((gatherScript rest).2.1.getD []))] }
          ps) := by
  refine ⟨tokenizeJS_join, fun src => scanTok_shape _ _ _, ?_, gatherScript_struct, ?_⟩
  · intro v rest hv
    have hs := scanAttrs_quoted hv rest
    have h2 : scanAttrs false ('a' :: '=' :: '"' :: (v ++ '"' :: '>' :: rest)) =
        some ('a' :: '=' :: '"' :: (v ++ ['"']), rest) := by
      have ha : scanAttrs false ('a' :: '=' :: '"' :: (v ++ '"' :: '>' :: rest)) =
          Option.map (fun p => ('a' :: p.1, p.2))
            (scanAttrs false ('=' :: '"' :: (v ++ '"' :: '>' :: rest))) := rfl
      have hb : scanAttrs false ('=' :: '"' :: (v ++ '"' :: '>' :: rest)) =
          Option.map (fun p => ('=' :: p.1, p.2))
            (scanAttrs false ('"' :: (v ++ '"' :: '>' :: rest))) := rfl
      have hc : scanAttrs false ('"' :: (v ++ '"' :: '>' :: rest)) =
          Option.map (fun p => ('"' :: p.1, p.2))
            (scanAttrs true (v ++ '"' :: '>' :: rest)) := rfl
      rw [ha, hb, hc, hs]
      rfl
    have key : tryTag ("<template a=".toList ++ '"' :: (v ++ '"' :: '>' :: rest)) =
        match scanAttrs false ('a' :: '=' :: '"' :: (v ++ '"' :: '>' :: rest)) with
        | some (a, r6) => some ('<' :: ("template".toList ++ ' ' :: (a ++ ['>'])), r6)
        | none => none := rfl
    rw [key, h2]
    simp
  · intro fs fuel fn p rest st ps h1 h2
    simp only [processParts, h1, if_true, h2, Bool.false_eq_true, if_false]

theorem C8_tokenizer_partition_witness :
    tryTag ("<template a=".toList ++ '"' :: ("1>2".toList ++ '"' :: '>' :: "t".toList)) =
      some ("<template a=".toList ++ '"' :: ("1>2".toList ++ ['"', '>']), "t".toList) ∧
    processParts (fun _ => none) 2 none
        ("<script>".toList :: ["body".toList, "</script>".toList]) emptyCState
        { reg := [], loads := [] } =
      processParts (fun _ => none) 1 none
        (gatherScript ["body".toList, "</script>".toList]).2.2
        { emptyCState with code := emptyCState.code ++
            [.emitLit ("<script>".toList ++
              (gatherScript ["body".toList, "</script>".toList]).1 ++
              ((gatherScript ["body".toList, "</script>".toList]).2.1.getD []))] }
        { reg := [], loads := [] } :=
  ⟨C8_tokenizer_partition.2.2.1 "1>2".toList "t".toList (by decide),
   C8_tokenizer_partition.2.2.2.2 (fun _ => none) 1 none "<script>".toList
     ["body".toList, "</script>".toList] emptyCState { reg := [], loads := [] }
     (by decide) (by decide)⟩

/-! ## Nesting-stack machinery for C2 -/

theorem applyAttr_nesting {a a2 : AttrState} {q : Str} (h : applyAttr a q = .ok a2) :
    a2.st.nesting = a.st.nesting := by
  simp only [applyAttr] at h
  repeat' split at h
  all_goals try simp only [Except.ok.injEq] at h
  all_goals first
    | (subst h; rfl)
    | simp at h

theorem applyAttrs_nesting : ∀ {qs : List Str} {a a2 : AttrState},
    applyAttrs a qs = .ok a2 → a2.st.nesting = a.st.nesting := by
  intro qs
  induction qs with
  | nil =>
    intro a a2 h
    simp only [applyAttrs, Except.ok.injEq] at h
    subst h
    rfl
  | cons q qs ih =>
    intro a a2 h
    simp only [applyAttrs] at h
    split at h
    · next a3 hq =>
      rw [ih h, applyAttr_nesting hq]
    · simp at h

theorem applyUse_nesting (a : AttrState) (sc : Bool) :
    (applyUse a sc).st.nesting = a.st.nesting := by
  simp only [applyUse]
  repeat' split
  all_goals rfl

theorem applyPartialEmit_nesting (a : AttrState) (sc : Bool) (fp : Str) :
    (applyPartialEmit a sc fp).st.nesting = a.st.nesting := by
  simp only [applyPartialEmit]
  repeat' split
  all_goals rfl

/-- Specification-side pairing check on the token stream: walk the parts
exactly as the parse loop does (script bodies swallowed, self-closing
tags neutral), tracking only the depth of open `<template>` tags; `true`
iff no close ever arrives at depth zero and the depth is zero at the end
(fuelled; one unit per part always suffices). -/
def depthOk : Nat → Nat → List Str → Bool
  | _, n, [] => n = 0
  | 0, _, _ :: _ => false
  | fuel + 1, n, p :: rest =>
    if testScriptOpen p then depthOk fuel n (gatherScript rest).2.2
    else if testTemplateTag p then
      if secondIsSlash p then
        match n with
        | 0 => false
        | m + 1 => depthOk fuel m rest
      else if tagSelfClosing p then depthOk fuel n rest
      else depthOk fuel (n + 1) rest
    else depthOk fuel n rest

def isNestingErr : Except CErr CState → Bool
  | .error .unexpectedClose => true
  | .error (.unclosedTemplate _) => true
  | _ => false

theorem applyAttr_err {a : AttrState} {q : Str} {e : CErr}
    (h : applyAttr a q = .error e) : isNestingErr (.error e) = false := by
  simp only [applyAttr] at h
  repeat' split at h
  all_goals try simp only [Except.error.injEq] at h
  all_goals first
    | (subst h; rfl)
    | simp at h

theorem applyAttrs_err : ∀ {qs : List Str} {a : AttrState} {e : CErr},
    applyAttrs a qs = .error e → isNestingErr (.error e) = false := by
  intro qs
  induction qs with
  | nil =>
    intro a e h
    simp [applyAttrs] at h
  | cons q qs ih =>
    intro a e h
    simp only [applyAttrs] at h
    split at h
    · exact ih h
    · next e2 hq =>
      simp only [Except.error.injEq] at h
      subst h
      exact applyAttr_err hq

theorem finishTag_nesting (a : AttrState) (sc : Bool) :
    (finishTag a sc).nesting = if sc then a.st.nesting.tail else a.st.nesting := by
  simp only [finishTag]
  split <;> simp_all

/-- Compile preserves the pairing discipline: whenever the specification
counter accepts the token stream at the current nesting depth, the parse
loop raises neither of the two stack errors. -/
theorem processParts_depthOk :
    ∀ (fuel : Nat) (fs : Str → Option Str) (fn : Option Str)
      (parts : List Str) (st : CState) (ps : PState),
      depthOk fuel st.nesting.length parts = true →
      isNestingErr (processParts fs fuel fn parts st ps).2 = false := by
  intro fuel
  induction fuel with
  | zero =>
    intro fs fn parts st ps h
    rfl
  | succ fuel ih =>
    intro fs fn parts st ps h
    match parts with
    | [] =>
      simp only [depthOk, decide_eq_true_eq] at h
      have hn : st.nesting = [] := List.length_eq_zero.mp h
      simp [processParts, hn, isNestingErr]
    | p :: rest =>
      simp only [depthOk] at h
      simp only [processParts]
      by_cases hso : testScriptOpen p = true
      · rw [if_pos hso] at h
        rw [if_pos hso]
        split
        · exact ih fs fn _ _ ps h
        · exact ih fs fn _ _ ps h
      · rw [if_neg hso] at h
        rw [if_neg hso]
        by_cases htt : testTemplateTag p = true
        · rw [if_pos htt] at h
          rw [if_pos htt]
          by_cases hsl : secondIsSlash p = true
          · rw [if_pos hsl] at h
            rw [if_pos hsl]
            cases hn : st.nesting with
            | nil =>
              rw [hn] at h
              simp at h
            | cons t ns =>
              rw [hn] at h
              exact ih fs fn rest
                { st with
                    nesting := ns,
                    code := st.code ++ st.closeCode.headD [],
                    closeCode := st.closeCode.tail } ps h
          · rw [if_neg hsl] at h
            rw [if_neg hsl]
            split
            · rename_i e he
              exact applyAttrs_err he
            · rename_i a1 hok
              have hnest1 : a1.st.nesting = p :: st.nesting := applyAttrs_nesting hok
              cases hsc : tagSelfClosing p with
              | true =>
                rw [hsc] at h
                simp only [if_true] at h
                have hne1 : (finishTag (applyUse a1 true) true).nesting = st.nesting := by
                  rw [finishTag_nesting, if_pos rfl, applyUse_nesting, hnest1]
                  rfl
                split
                · exact ih fs fn rest _ ps (by rw [hne1]; exact h)
                · cases fn with
                  | none => rfl
                  | some fn2 =>
                    have hne2 : ∀ fp : Str,
                        (finishTag (applyPartialEmit (applyUse a1 true) true fp)
                          true).nesting = st.nesting := by
                      intro fp
                      rw [finishTag_nesting, if_pos rfl, applyPartialEmit_nesting,
                        applyUse_nesting, hnest1]
                      rfl
                    exact ih fs (some fn2) rest _ _ (by rw [hne2]; exact h)
              | false =>
                rw [hsc] at h
                simp only [Bool.false_eq_true, if_false] at h
                have hne1 : (finishTag (applyUse a1 false) false).nesting =
                    p :: st.nesting := by
                  rw [finishTag_nesting, if_neg (by simp), applyUse_nesting, hnest1]
                split
                · refine ih fs fn rest _ ps ?_
                  rw [hne1]
                  simpa using h
                · cases fn with
                  | none => rfl
                  | some fn2 =>
                    have hne2 : ∀ fp : Str,
                        (finishTag (applyPartialEmit (applyUse a1 false) false fp)
                          false).nesting = p :: st.nesting := by
                      intro fp
                      rw [finishTag_nesting, if_neg (by simp), applyPartialEmit_nesting,
                        applyUse_nesting, hnest1]
                    refine ih fs (some fn2) rest _ _ ?_
                    rw [hne2]
                    simpa using h
        · rw [if_neg htt] at h
          rw [if_neg htt]
          exact ih fs fn rest _ ps h

/-- A successful parse always ends with an empty nesting stack (the
end-of-input check would otherwise have failed). -/
theorem processParts_ok_nesting :
    ∀ (fuel : Nat) (fs : Str → Option Str) (fn : Option Str) (parts : List Str)
      (st : CState) (ps : PState) (st2 : CState),
      (processParts fs fuel fn parts st ps).2 = .ok st2 → st2.nesting = [] := by
  intro fuel
  induction fuel with
  | zero =>
    intro fs fn parts st ps st2 h
    simp [processParts] at h
  | succ fuel ih =>
    intro fs fn parts st ps st2 h
    match parts with
    | [] =>
      cases hn : st.nesting with
      | nil =>
        simp only [processParts, hn] at h
        simp only [Except.ok.injEq] at h
        rw [← h, hn]
      | cons t ns =>
        simp only [processParts, hn] at h
        simp at h
    | p :: rest =>
      simp only [processParts] at h
      split at h
      · exact ih fs fn _ _ ps st2 h
      · split at h
        · split at h
          · split at h
            · simp at h
            · exact ih fs fn _ _ ps st2 h
          · split at h
            · simp at h
            · split at h
              · exact ih fs fn _ _ ps st2 h
              · split at h
                · simp at h
                · exact ih fs _ _ _ _ st2 h
        · exact ih fs fn _ _ ps st2 h

/-- C2: nesting-stack correctness.  A `</template>` part arriving with an
empty nesting stack is the `Unexpected </template>` compile error; end of
input with a tag still open is the `Expected </template>` compile error
(no render routine is produced in either case, the result being an
error); for every token stream accepted by the pairing counter, neither
of these two errors is raised, and whenever compilation succeeds the
nesting stack is empty at end of input. -/
theorem C2_nesting_errors :
    (∀ (fs : Str → Option Str) (fuel : Nat) (fn : Option Str) (p : Str)
      (rest : List Str) (st : CState) (ps : PState),
      testScriptOpen p = false → testTemplateTag p = true → secondIsSlash p = true →
      st.nesting = [] →
      processParts fs (fuel + 1) fn (p :: rest) st ps = (ps, .error .unexpectedClose)) ∧
    (∀ (fs : Str → Option Str) (fuel : Nat) (fn : Option Str) (st : CState) (ps : PState)
      (tag : Str) (ns : List Str), st.nesting = tag :: ns →
      processParts fs (fuel + 1) fn [] st ps = (ps, .error (.unclosedTemplate tag))) ∧
    (∀ (fs : Str → Option Str) (fuel : Nat) (fn : Option Str) (src : Str) (ps : PState),
      depthOk fuel 0 (tokenizeJS src) = true →
      isNestingErr (compileTemplate fs fuel fn src ps).2 = false) ∧
    (∀ (fuel : Nat) (fs : Str → Option Str) (fn : Option Str) (parts : List Str)
      (st : CState) (ps : PState) (st2 : CState),
      (processParts fs fuel fn parts st ps).2 = .ok st2 → st2.nesting = []) := by
  refine ⟨?_, ?_, ?_, processParts_ok_nesting⟩
  · intro fs fuel fn p rest st ps h1 h2 h3 h4
    simp only [processParts, h1, Bool.false_eq_true, if_false, h2, if_true, h3, h4]
  · intro fs fuel fn st ps tag ns h
    simp only [processParts, h]
  · intro fs fuel fn src ps h
    exact processParts_depthOk fuel fs fn (tokenizeJS src) emptyCState ps h

theorem C2_nesting_errors_witness :
    processParts (fun _ => none) 3 none ["</template>".toList] emptyCState
        { reg := [], loads := [] } =
      ({ reg := [], loads := [] }, .error .unexpectedClose) ∧
    isNestingErr (compileTemplate (fun _ => none) 9 none
      ("<template if=\"x\">A</template>".toList) { reg := [], loads := [] }).2 = false := by
  constructor
  · exact C2_nesting_errors.1 (fun _ => none) 2 none "</template>".toList [] emptyCState
      { reg := [], loads := [] } (by decide) (by decide) (by decide) rfl
  · exact C2_nesting_errors.2.2.1 (fun _ => none) 9 none
      ("<template if=\"x\">A</template>".toList) { reg := [], loads := [] } (by decide)

/-! ## Registry/load bookkeeping for C4 -/

/-- Invariant of the shared partial state: no path was loaded twice, and
every loaded path is registered. -/
def PInv (ps : PState) : Prop := ps.loads.Nodup ∧ ∀ x ∈ ps.loads, x ∈ ps.reg

/-- Evolution of the shared partial state across a compilation step: the
registry only grows, and every newly logged load was not yet registered
when the step began. -/
def PExt (ps ps2 : PState) : Prop :=
  (∀ x ∈ ps.reg, x ∈ ps2.reg) ∧
  ∃ new, ps2.loads = ps.loads ++ new ∧ ∀ x ∈ new, ¬ x ∈ ps.reg

theorem PExt_refl (ps : PState) : PExt ps ps :=
  ⟨fun x hx => hx, [], by simp, by simp⟩

theorem PExt_trans {a b c : PState} (h1 : PExt a b) (h2 : PExt b c) : PExt a c := by
  obtain ⟨hr1, n1, hl1, hn1⟩ := h1
  obtain ⟨hr2, n2, hl2, hn2⟩ := h2
  refine ⟨fun x hx => hr2 x (hr1 x hx), n1 ++ n2, ?_, ?_⟩
  · rw [hl2, hl1, List.append_assoc]
  · intro x hx
    rcases List.mem_append.mp hx with h | h
    · exact hn1 x h
    · intro hxa
      exact hn2 x h (hr1 x hxa)

theorem PInv_register {ps : PState} {fp : Str} (hInv : PInv ps) (hfp : ¬ fp ∈ ps.reg) :
    PInv { reg := ps.reg ++ [fp], loads := ps.loads ++ [fp] } ∧
    PExt ps { reg := ps.reg ++ [fp], loads := ps.loads ++ [fp] } := by
  obtain ⟨hnd, hsub⟩ := hInv
  refine ⟨⟨?_, ?_⟩, fun x hx => by simp [hx], [fp], rfl, by simpa using hfp⟩
  · rw [List.nodup_append]
    refine ⟨hnd, by simp, ?_⟩
    intro x hx hx2
    simp only [List.mem_singleton] at hx2
    subst hx2
    exact hfp (hsub x hx)
  · intro x hx
    rcases List.mem_append.mp hx with h | h
    · simp [hsub x h]
    · exact List.mem_append.mpr (Or.inr h)

/-- The parse loop preserves the load invariant: within one run no path
is ever loaded twice, every load is immediately registered, the registry
only grows, and no newly loaded path was registered before the step. -/
theorem processParts_loads :
    ∀ (fuel : Nat) (fs : Str → Option Str) (fn : Option Str) (parts : List Str)
      (st : CState) (ps : PState), PInv ps →
      PInv (processParts fs fuel fn parts st ps).1 ∧
      PExt ps (processParts fs fuel fn parts st ps).1 := by
  intro fuel
  induction fuel with
  | zero =>
    intro fs fn parts st ps h
    exact ⟨h, PExt_refl ps⟩
  | succ fuel ih =>
    intro fs fn parts st ps h
    match parts with
    | [] =>
      cases hn : st.nesting with
      | nil =>
        simp only [processParts, hn]
        exact ⟨h, PExt_refl ps⟩
      | cons t ns =>
        simp only [processParts, hn]
        exact ⟨h, PExt_refl ps⟩
    | p :: rest =>
      simp only [processParts]
      split
      · exact ih fs fn _ _ ps h
      · split
        · split
          · split
            · exact ⟨h, PExt_refl ps⟩
            · exact ih fs fn _ _ ps h
          · split
            · exact ⟨h, PExt_refl ps⟩
            · rename_i a1 hok
              split
              · exact ih fs fn _ _ ps h
              · split
                · exact ⟨h, PExt_refl ps⟩
                · rename_i fn2
                  split
                  · exact ih fs _ _ _ ps h
                  · rename_i hnotreg
                    split
                    · rename_i hread
                      obtain ⟨hInv1, hExt1⟩ := PInv_register h hnotreg
                      obtain ⟨hInv2, hExt2⟩ := ih fs (some fn2) rest _ _ hInv1
                      exact ⟨hInv2, PExt_trans hExt1 hExt2⟩
                    · rename_i src2 hread
                      obtain ⟨hInv1, hExt1⟩ := PInv_register h hnotreg
                      obtain ⟨hInv2, hExt2⟩ := ih fs _ (tokenizeJS src2) emptyCState _ hInv1
                      obtain ⟨hInv3, hExt3⟩ := ih fs (some fn2) rest _ _ hInv2
                      exact ⟨hInv3, PExt_trans hExt1 (PExt_trans hExt2 hExt3)⟩
        · exact ih fs fn _ _ ps h

/-- C4: within one compilation run the shared registry deduplicates
partial loads.  Starting from any invariant-satisfying shared state, the
final load log has no duplicate path, every loaded path is registered,
and a path already present in the registry when the run started is never
loaded during the run. -/
theorem C4_partial_loaded_once :
    ∀ (fs : Str → Option Str) (fuel : Nat) (fn : Option Str) (src : Str) (ps : PState),
      PInv ps →
      (compileTemplate fs fuel fn src ps).1.loads.Nodup ∧
      (∀ x ∈ (compileTemplate fs fuel fn src ps).1.loads,
        x ∈ (compileTemplate fs fuel fn src ps).1.reg) ∧
      (∀ x, x ∈ ps.reg →
        x ∈ (compileTemplate fs fuel fn src ps).1.loads → x ∈ ps.loads) := by
  intro fs fuel fn src ps h
  obtain ⟨⟨hnd, hsub⟩, hmono, new, hnew, hdisj⟩ :=
    processParts_loads fuel fs fn (tokenizeJS src) emptyCState ps h
  refine ⟨hnd, hsub, ?_⟩
  intro x hreg hld
  simp only [compileTemplate] at hld
  rw [hnew] at hld
  rcases List.mem_append.mp hld with h2 | h2
  · exact h2
  · exact absurd hreg (hdisj x h2)

def fs4w : Str → Option Str :=
  fun p => if p = "/d/x".toList then some "hi".toList else none

theorem C4_partial_loaded_once_witness :
    (compileTemplate fs4w 30 (some "/d/m".toList)
      ("<template partial=\"x\" /><template partial=\"x\" />".toList)
      { reg := [], loads := [] }).1.loads.Nodup :=
  (C4_partial_loaded_once fs4w 30 (some "/d/m".toList)
    ("<template partial=\"x\" /><template partial=\"x\" />".toList)
    { reg := [], loads := [] } ⟨by decide, by simp⟩).1
